import Mathlib

/-!
Verification of the endpoint-discovery engine of the api-auto-doc repository.

The Python source is shallowly embedded: strings are `List Char`, the regular
expressions used by the parsers are embedded as a small backtracking matcher
(`mtch`) over an explicit pattern AST (`Rx`) that mirrors Python `re`
semantics for the constructs actually used by the code: literals, the ASCII
fragment of the classes `\w` `\s` `.`, bracket classes, greedy `*` `+` `?`,
lazy `*?`, alternation (leftmost preference), capturing groups, and the
scanning functions `search`, `finditer`, `findall`.  All definitions are
transcribed from the files under `backend/app/services/`.
-/

deriving instance DecidableEq for Except

namespace ApiAutoDoc

/-- ASCII word character, the `\w` class of Python `re` restricted to ASCII. -/
def isWordChar (c : Char) : Bool :=
  c.isAlpha || c.isDigit || c = '_'

/-- ASCII whitespace, the `\s` class of Python `re` restricted to ASCII. -/
def isSpaceChar (c : Char) : Bool :=
  c = ' ' || c = '\t' || c = '\n' || c = '\r' || c = '\x0b' || c = '\x0c'

/-- Character classes appearing in the patterns of the source. -/
inductive RC where
  | wordc : RC
  | spacec : RC
  | anyc : RC
  | inSet (cs : List Char) : RC
  | notSet (cs : List Char) : RC
  deriving DecidableEq

/-- Does class `k` accept character `c`?  `ci` is the `re.IGNORECASE` flag. -/
def rcAccepts (ci : Bool) (k : RC) (c : Char) : Bool :=
  match k with
  | .wordc => isWordChar c
  | .spacec => isSpaceChar c
  | .anyc => true
  | .inSet cs => if ci then cs.any (fun d => d.toLower = c.toLower) else cs.contains c
  | .notSet cs => if ci then !cs.any (fun d => d.toLower = c.toLower) else !cs.contains c

/-- Pattern AST for the regular expressions used by the source. -/
inductive Rx where
  | eps : Rx
  | ch (c : Char) : Rx
  | cls (k : RC) : Rx
  | cat (a b : Rx) : Rx
  | alt (a b : Rx) : Rx
  | star (a : Rx) : Rx
  | lazyStar (a : Rx) : Rx
  | opt (a : Rx) : Rx
  | grp (a : Rx) : Rx
  deriving DecidableEq

/-- Literal sequence of characters. -/
def rlit : List Char → Rx
  | [] => .eps
  | [c] => .ch c
  | c :: cs => .cat (.ch c) (rlit cs)

/-- Literal string pattern. -/
def rstr (s : String) : Rx := rlit s.data

/-- Ordered alternation of literal words, as in `(GET|POST|...)`. -/
def ralts : List String → Rx
  | [] => .cls (.inSet [])
  | [s] => rstr s
  | s :: ss => .alt (rstr s) (ralts ss)

/-- `r+` is `r r*`. -/
def Rx.plus (a : Rx) : Rx := .cat a (.star a)

/-- Captured groups of one match attempt, in group-number order. -/
abbrev Caps := List (List Char)

/-- Matches of one-or-more greedy iterations of a sub-matcher `f`, each
iteration required to consume at least one character (Python never repeats a
zero-width `*` iteration); `n` bounds the number of iterations, and the
results are in greedy backtracking order (longest first), ending with the
zero-iteration result.  -/
def starIter (f : List Char → List (Caps × List Char)) : Nat → List Char → List (Caps × List Char)
  | 0, s => [([], s)]
  | n+1, s =>
      (((f s).filter (fun p => p.2.length < s.length)).flatMap
        (fun p => (starIter f n p.2).map (fun q => (p.1 ++ q.1, q.2)))) ++ [([], s)]

/-- Lazy (non-greedy) iteration: the zero-iteration result comes first. -/
def lazyIter (f : List Char → List (Caps × List Char)) : Nat → List Char → List (Caps × List Char)
  | 0, s => [([], s)]
  | n+1, s =>
      ([], s) :: (((f s).filter (fun p => p.2.length < s.length)).flatMap
        (fun p => (lazyIter f n p.2).map (fun q => (p.1 ++ q.1, q.2))))

/-- Anchored matcher: all ways pattern `r` can match a prefix of `s`, each as
(captured groups, remaining suffix), in Python backtracking preference order
(the first element is the match Python reports).  `ci` is `re.IGNORECASE`. -/
def mtch (ci : Bool) : Rx → List Char → List (Caps × List Char)
  | .eps, s => [([], s)]
  | .ch _, [] => []
  | .ch c, d :: s => if (if ci then c.toLower = d.toLower else c = d) then [([], s)] else []
  | .cls _, [] => []
  | .cls k, d :: s => if rcAccepts ci k d then [([], s)] else []
  | .cat a b, s =>
      (mtch ci a s).flatMap (fun p => (mtch ci b p.2).map (fun q => (p.1 ++ q.1, q.2)))
  | .alt a b, s => mtch ci a s ++ mtch ci b s
  | .star a, s => starIter (mtch ci a) s.length s
  | .lazyStar a, s => lazyIter (mtch ci a) s.length s
  | .opt a, s => mtch ci a s ++ [([], s)]
  | .grp a, s =>
      (mtch ci a s).map (fun p => ((s.take (s.length - p.2.length)) :: p.1, p.2))

/-- The match Python reports at this exact position, if any. -/
def mtchHead (ci : Bool) (r : Rx) (s : List Char) : Option (Caps × List Char) :=
  (mtch ci r s).head?

/-- Scan for the leftmost match starting at running index `i` over suffix `s`;
returns (start index, captures, end index).  This is `re.search` relative to a
position: Python tries each position left to right and at each position takes
the first match in backtracking order. -/
def searchFrom (ci : Bool) (r : Rx) : List Char → Nat → Option (Nat × Caps × Nat)
  | [], i =>
    match mtchHead ci r [] with
    | some p => some (i, p.1, i + (([] : List Char).length - p.2.length))
    | none => none
  | c :: t, i =>
    match mtchHead ci r (c :: t) with
    | some p => some (i, p.1, i + ((c :: t).length - p.2.length))
    | none => searchFrom ci r t (i+1)

/-- One step list of `re.finditer`: repeatedly search from the end of the
previous match (advancing by one position after a zero-width match, as Python
does).  `fuel` bounds the number of matches; `full.length + 2` always
suffices because the scan position strictly increases. -/
def finditerAux (ci : Bool) (r : Rx) (full : List Char) : Nat → Nat → List (Nat × Caps × Nat)
  | 0, _ => []
  | fuel+1, i =>
    match searchFrom ci r (full.drop i) i with
    | none => []
    | some (st, caps, en) =>
        (st, caps, en) :: finditerAux ci r full fuel (if st < en then en else en + 1)

/-- All non-overlapping matches of `r` in `full`, as `re.finditer`. -/
def finditer (ci : Bool) (r : Rx) (full : List Char) : List (Nat × Caps × Nat) :=
  finditerAux ci r full (full.length + 2) 0

/-- First capture group of a match triple, Python `match.group(1)`. -/
def cap1 (m : Nat × Caps × Nat) : List Char := m.2.1.getD 0 []

/-- Second capture group of a match triple, Python `match.group(2)`. -/
def cap2 (m : Nat × Caps × Nat) : List Char := m.2.1.getD 1 []

/-- Start index of a match triple, Python `match.start()`. -/
def mstart (m : Nat × Caps × Nat) : Nat := m.1

/-- End index of a match triple, Python `match.end()`. -/
def mend (m : Nat × Caps × Nat) : Nat := m.2.2

/-- Python `re.findall` for a pattern with a single capture group. -/
def findallG1 (ci : Bool) (r : Rx) (s : List Char) : List (List Char) :=
  (finditer ci r s).map cap1

/-- Python substring test `needle in hay`. -/
def strContains (hay needle : List Char) : Bool :=
  match hay with
  | [] => needle.isEmpty
  | c :: t => needle.isPrefixOf (c :: t) || strContains t needle

/-- Python slice `content[start : start + len]`. -/
def seg (s : List Char) (start len : Nat) : List Char :=
  (s.drop start).take len

/-- Number of newline characters in `content[:n]`; `line = countNl .. + 1`
embeds `content[:match.start()].count('\n') + 1`. -/
def countNl (s : List Char) (n : Nat) : Nat :=
  (s.take n).count '\n'

/-- Python `str.upper()` on ASCII text. -/
def pyUpper (s : List Char) : List Char := s.map Char.toUpper

/-- Python `str.lower()` on ASCII text. -/
def pyLower (s : List Char) : List Char := s.map Char.toLower

/-- Python `str.strip()` (strip ASCII whitespace at both ends). -/
def pyStrip (s : List Char) : List Char :=
  ((s.dropWhile isSpaceChar).reverse.dropWhile isSpaceChar).reverse

/-- Python `str.strip(c)` for a single strip character. -/
def stripChar (c : Char) (s : List Char) : List Char :=
  ((s.dropWhile (· = c)).reverse.dropWhile (· = c)).reverse

/-- Fuel-indexed worker for `strReplace`; every step consumes at least one
character, so fuel `s.length` never runs out. -/
def strReplaceAux (old new : List Char) : Nat → List Char → List Char
  | 0, s => s
  | fuel+1, s =>
    match s with
    | [] => []
    | c :: t =>
      if old ≠ [] ∧ old.isPrefixOf (c :: t) then
        new ++ strReplaceAux old new fuel ((c :: t).drop old.length)
      else
        c :: strReplaceAux old new fuel t

/-- Python `str.replace(old, new)`: replace every non-overlapping occurrence,
scanning left to right.  (All call sites in the source use a non-empty
`old`; for `old = []` we return `s` unchanged.) -/
def strReplace (s old new : List Char) : List Char :=
  strReplaceAux old new s.length s

/-- Python `str.split(sep)` for a single-character separator: splits at every
occurrence, keeping empty pieces. -/
def splitOnChar (c : Char) : List Char → List (List Char)
  | [] => [[]]
  | d :: t =>
    if d = c then [] :: splitOnChar c t
    else
      match splitOnChar c t with
      | [] => [[d]]
      | h :: r => (d :: h) :: r

/-- Helper for `pyTitle`: `prev` records whether the previous character was a
letter. -/
def pyTitleAux : Bool → List Char → List Char
  | _, [] => []
  | prev, c :: t =>
    if c.isAlpha then
      (if prev then c.toLower else c.toUpper) :: pyTitleAux true t
    else c :: pyTitleAux false t

/-- Python `str.title()` on ASCII text: first letter of each run of letters
uppercased, the rest lowercased. -/
def pyTitle (s : List Char) : List Char := pyTitleAux false s

/-- POSIX `os.path.basename`: the part after the last slash. -/
def baseName (s : List Char) : List Char :=
  (splitOnChar '/' s).getLastD []

/-- Index of the last occurrence of `c` in `s`, or `none`; Python `str.rfind`. -/
def rfindChar (c : Char) (s : List Char) : Option Nat :=
  match s with
  | [] => none
  | d :: t =>
    match rfindChar c t with
    | some i => some (i + 1)
    | none => if d = c then some 0 else none

/-- `pathlib.Path.suffix` of a file name: `name[i:]` for `i = name.rfind('.')`
when `0 < i < len(name) - 1`, else empty. -/
def pathSuffix (name : List Char) : List Char :=
  match rfindChar '.' name with
  | none => []
  | some i => if 0 < i ∧ i < name.length - 1 then name.drop i else []

/-- Embedding of `BaseParser.normalize_path` (base_parser.py, lines 136-143):
add a leading slash when missing, then strip one trailing slash unless the
path is exactly `/`. -/
def normalize_path (p : List Char) : List Char :=
  let q := if ['/'].isPrefixOf p then p else '/' :: p
  if q ≠ ['/'] && ['/'].isSuffixOf q then q.dropLast else q

/-- Pattern `:(\w+)` of `BaseParser.extract_path_params` (Express style). -/
def colonParamPat : Rx :=
  .cat (.ch ':') (.grp (Rx.plus (.cls .wordc)))

/-- Pattern `\{(\w+)\}` of `BaseParser.extract_path_params` (OpenAPI style). -/
def braceParamPat : Rx :=
  .cat (.ch '\x7b') (.cat (.grp (Rx.plus (.cls .wordc))) (.ch '\x7d'))

/-- Pattern `<(?:\w+:)?(\w+)>` of `BaseParser.extract_path_params` (Flask
style, optionally typed). -/
def angleParamPat : Rx :=
  .cat (.ch '<')
    (.cat (.opt (.cat (Rx.plus (.cls .wordc)) (.ch ':')))
      (.cat (.grp (Rx.plus (.cls .wordc))) (.ch '>')))

/-- Embedding of `BaseParser.extract_path_params` (base_parser.py, lines
145-167): the three `findall` results concatenated.  The source returns
`list(set(params))`, i.e. the same names deduplicated in an unspecified
order; we deduplicate keeping first occurrences, and all claims about the
result go through its underlying finite set. -/
def extract_path_params (p : List Char) : List (List Char) :=
  (findallG1 false colonParamPat p ++ findallG1 false braceParamPat p ++
    findallG1 false angleParamPat p).dedup

/-- Members of the `HTTPMethod` enum of base_parser.py. -/
def HTTPMethodValues : List (List Char) :=
  (["GET", "POST", "PUT", "PATCH", "DELETE", "HEAD", "OPTIONS"]).map String.data

/-- Embedding of the `ParsedParameter` dataclass of base_parser.py. -/
structure PParam where
  name : List Char
  param_type : List Char
  data_type : List Char
  required : Bool
  description : List Char
  deriving DecidableEq

/-- Embedding of the `ParsedEndpoint` dataclass of base_parser.py.  The
fields `request_body_type`, `response_type` and `decorators` are omitted:
no parser embedded here ever sets them away from their defaults. -/
structure PEndpoint where
  path : List Char
  method : List Char
  function_name : List Char
  file_path : List Char
  line_number : Nat
  summary : List Char
  description : List Char
  tags : List (List Char)
  parameters : List PParam
  auth_required : Bool
  deriving DecidableEq

/-- The two Python quote characters `'` and `"` (39 is ASCII apostrophe). -/
def quoteChars : List Char := ['"', Char.ofNat 39]

namespace Django

/-- Pattern `@api_view\s*\(\s*\[([^\]]+)\]\s*\)` (django_rest_parser.py,
`API_VIEW_DECORATOR`). -/
def apiViewDecPat : Rx :=
  .cat (rstr "@api_view") (.cat (.star (.cls .spacec)) (.cat (.ch '(')
    (.cat (.star (.cls .spacec)) (.cat (.ch '[')
      (.cat (.grp (Rx.plus (.cls (.notSet [']']))))
        (.cat (.ch ']') (.cat (.star (.cls .spacec)) (.ch ')'))))))))

/-- Pattern `['"](\w+)['"]` used on the decorator's method list. -/
def quotedWordPat : Rx :=
  .cat (.cls (.inSet quoteChars)) (.cat (.grp (Rx.plus (.cls .wordc)))
    (.cls (.inSet quoteChars)))

/-- Pattern `def\s+(\w+)\s*\(` used to find the decorated function. -/
def defNamePat : Rx :=
  .cat (rstr "def") (.cat (Rx.plus (.cls .spacec))
    (.cat (.grp (Rx.plus (.cls .wordc))) (.cat (.star (.cls .spacec)) (.ch '('))))

/-- Pattern `class\s+(\w+)\s*\(\s*(?:[\w.]+\s*,\s*)*(\w*(?:APIView|ViewSet|ModelViewSet|GenericAPIView))`
(django_rest_parser.py, `CLASS_VIEW`). -/
def classViewPat : Rx :=
  .cat (rstr "class") (.cat (Rx.plus (.cls .spacec))
    (.cat (.grp (Rx.plus (.cls .wordc)))
      (.cat (.star (.cls .spacec)) (.cat (.ch '(')
        (.cat (.star (.cls .spacec))
          (.cat (.star (.cat (Rx.plus (.alt (.cls .wordc) (.ch '.')))
              (.cat (.star (.cls .spacec)) (.cat (.ch ',') (.star (.cls .spacec))))))
            (.grp (.cat (.star (.cls .wordc))
              (ralts ["APIView", "ViewSet", "ModelViewSet", "GenericAPIView"])))))))))

/-- Pattern `def\s+(get|post|put|patch|delete|list|create|retrieve|update|partial_update|destroy)\s*\(`
(django_rest_parser.py, `METHOD_DEF`, compiled with `re.IGNORECASE`). -/
def methodDefPat : Rx :=
  .cat (rstr "def") (.cat (Rx.plus (.cls .spacec))
    (.cat (.grp (ralts ["get", "post", "put", "patch", "delete", "list",
        "create", "retrieve", "update", "partial_update", "destroy"]))
      (.cat (.star (.cls .spacec)) (.ch '('))))

/-- Pattern `"""(.*?)"""` with `re.DOTALL` used for docstrings. -/
def docstringPat : Rx :=
  .cat (rstr "\"\"\"") (.cat (.grp (.lazyStar (.cls .anyc))) (rstr "\"\"\""))

/-- Pattern `\nclass\s+\w+` used to delimit a class body. -/
def nlClassPat : Rx :=
  .cat (.ch '\n') (.cat (rstr "class")
    (.cat (Rx.plus (.cls .spacec)) (Rx.plus (.cls .wordc))))

/-- The `VIEWSET_ACTIONS` table of django_rest_parser.py. -/
def VIEWSET_ACTIONS : List (List Char × List Char) :=
  [("list", "GET"), ("create", "POST"), ("retrieve", "GET"),
    ("update", "PUT"), ("partial_update", "PATCH"), ("destroy", "DELETE")].map
    (fun p => (p.1.data, p.2.data))

/-- Embedding of `DjangoRESTParser._extract_docstring`: search the docstring
pattern in `content[start : start+500]`, then first line of the stripped
group. -/
def extract_docstring (content : List Char) (start : Nat) : List Char :=
  match searchFrom false docstringPat (seg content start 500) 0 with
  | some m => ((splitOnChar '\n' (pyStrip (cap1 m))).headD [])
  | none => []

/-- Embedding of `DjangoRESTParser._extract_class_body`: the text up to the
next `\nclass`, else the next 2000 characters. -/
def extract_class_body (content : List Char) (start : Nat) : List Char :=
  let remaining := content.drop start
  match searchFrom false nlClassPat remaining 0 with
  | some nc => remaining.take (mstart nc)
  | none => remaining.take 2000

/-- Embedding of `DjangoRESTParser._class_to_path`: strip the view suffixes,
dash-separate the camel-case words (`re.sub(r'([A-Z])', r'-\1', ...)`),
lowercase, strip dashes, pluralize. -/
def dashCaps : List Char → List Char
  | [] => []
  | c :: t => if c.isUpper then '-' :: c :: dashCaps t else c :: dashCaps t

/-- Embedding of `DjangoRESTParser._class_to_path` (see `dashCaps`). -/
def class_to_path (class_name : List Char) : List Char :=
  let n := strReplace (strReplace (strReplace class_name "ViewSet".data [])
    "APIView".data []) "View".data []
  let p := stripChar '-' (pyLower (dashCaps n))
  if p.getLast? = some 's' then p else p ++ ['s']

/-- Embedding of `DjangoRESTParser._parse_api_view_functions`
(django_rest_parser.py, lines 93-128): one endpoint per listed method, the
method being the uppercased listed word, the path derived from the function
name. -/
def parse_api_view_functions (content fp : List Char) : List PEndpoint :=
  (finditer false apiViewDecPat content).flatMap (fun m =>
    let methods := findallG1 false quotedWordPat (cap1 m)
    match searchFrom false defNamePat (seg content (mend m) 200) 0 with
    | none => []
    | some fm =>
      let func_name := cap1 fm
      let line_number := countNl content (mstart m) + 1
      let path := '/' :: (func_name.map (fun c => if c = '_' then '-' else c))
      let func_start := mend m + mend fm
      let description := extract_docstring content func_start
      methods.map (fun meth =>
        ⟨path, pyUpper meth, func_name, fp, line_number, [], description,
          ["API".data], [], false⟩))

/-- Embedding of `DjangoRESTParser._parse_class_views` (django_rest_parser.py,
lines 130-174). -/
def parse_class_views (content fp : List Char) : List PEndpoint :=
  (finditer false classViewPat content).flatMap (fun m =>
    let class_name := cap1 m
    let class_start := mend m
    let class_body := extract_class_body content class_start
    let base_path := '/' :: class_to_path class_name
    (finditer true methodDefPat class_body).map (fun mm =>
      let method_name := pyLower (cap1 mm)
      let http_method := match VIEWSET_ACTIONS.lookup method_name with
        | some v => v
        | none => pyUpper method_name
      let path := match VIEWSET_ACTIONS.lookup method_name with
        | some _ =>
          if method_name ∈ ["retrieve".data, "update".data,
              "partial_update".data, "destroy".data] then
            base_path ++ "/\x7bid\x7d".data
          else base_path
        | none => base_path
      let func_line := countNl content class_start + countNl class_body (mstart mm) + 1
      ⟨path, http_method, class_name ++ '.' :: method_name, fp, func_line, [], [],
        [strReplace (strReplace class_name "ViewSet".data []) "View".data []],
        [], false⟩))

/-- Embedding of `DjangoRESTParser.parse_content`: function-based views
followed by class-based views. -/
def parse_content (content fp : List Char) : List PEndpoint :=
  parse_api_view_functions content fp ++ parse_class_views content fp

end Django

namespace GoGin

/-- Pattern `(?:router|r|e|g|api|group|app)\s*\.\s*(GET|POST|PUT|PATCH|DELETE|HEAD|OPTIONS)\s*\(\s*"([^"]+)"`
(go_gin_parser.py, `METHOD_PATTERN`, compiled with `re.IGNORECASE`). -/
def methodPat : Rx :=
  .cat (ralts ["router", "r", "e", "g", "api", "group", "app"])
    (.cat (.star (.cls .spacec)) (.cat (.ch '.') (.cat (.star (.cls .spacec))
      (.cat (.grp (ralts ["GET", "POST", "PUT", "PATCH", "DELETE", "HEAD", "OPTIONS"]))
        (.cat (.star (.cls .spacec)) (.cat (.ch '(') (.cat (.star (.cls .spacec))
          (.cat (.ch '"') (.cat (.grp (Rx.plus (.cls (.notSet ['"'])))) (.ch '"'))))))))))

/-- Pattern `(\w+)\s*:?=\s*\w+\s*\.\s*Group\s*\(\s*"([^"]+)"` (go_gin_parser.py,
`GROUP_PATTERN`). -/
def groupPat : Rx :=
  .cat (.grp (Rx.plus (.cls .wordc)))
    (.cat (.star (.cls .spacec)) (.cat (.opt (.ch ':')) (.cat (.ch '=')
      (.cat (.star (.cls .spacec)) (.cat (Rx.plus (.cls .wordc))
        (.cat (.star (.cls .spacec)) (.cat (.ch '.') (.cat (.star (.cls .spacec))
          (.cat (rstr "Group") (.cat (.star (.cls .spacec)) (.cat (.ch '(')
            (.cat (.star (.cls .spacec)) (.cat (.ch '"')
              (.cat (.grp (Rx.plus (.cls (.notSet ['"'])))) (.ch '"')))))))))))))))

/-- Pattern `,\s*(\w+)\s*\)` (go_gin_parser.py, `HANDLER_PATTERN`). -/
def handlerPat : Rx :=
  .cat (.ch ',') (.cat (.star (.cls .spacec))
    (.cat (.grp (Rx.plus (.cls .wordc))) (.cat (.star (.cls .spacec)) (.ch ')'))))

/-- Pattern `func\s+NAME\s*\([^)]*\)\s*\{` built dynamically in
`_find_handler_params` for a given handler name (the name is `\w+` so
`re.escape` is the identity). -/
def funcOfHandlerPat (name : List Char) : Rx :=
  .cat (rstr "func") (.cat (Rx.plus (.cls .spacec)) (.cat (rlit name)
    (.cat (.star (.cls .spacec)) (.cat (.ch '(') (.cat (.star (.cls (.notSet [')'])))
      (.cat (.ch ')') (.cat (.star (.cls .spacec)) (.ch '\x7b'))))))))

/-- Pattern `\n\s*func\s+` used to delimit a function body. -/
def nextFuncPat : Rx :=
  .cat (.ch '\n') (.cat (.star (.cls .spacec))
    (.cat (rstr "func") (Rx.plus (.cls .spacec))))

/-- Pattern `c\.(?:Query|DefaultQuery)\s*\(\s*"([^"]+)"` (go_gin_parser.py,
`QUERY_PATTERN`). -/
def queryPat : Rx :=
  .cat (rstr "c.") (.cat (ralts ["Query", "DefaultQuery"])
    (.cat (.star (.cls .spacec)) (.cat (.ch '(') (.cat (.star (.cls .spacec))
      (.cat (.ch '"') (.cat (.grp (Rx.plus (.cls (.notSet ['"'])))) (.ch '"')))))))

/-- Embedding of `GoGinParser._find_handler_params`: locate the handler
function, delimit its body at the next `func` (else 1000 characters), and
collect `c.Query`/`c.DefaultQuery` names as optional query parameters. -/
def find_handler_params (content handler_name : List Char) : List PParam :=
  match searchFrom false (funcOfHandlerPat handler_name) content 0 with
  | none => []
  | some m =>
    let remaining := content.drop (mend m)
    let func_body := match searchFrom false nextFuncPat remaining 0 with
      | some nf => remaining.take (mstart nf)
      | none => remaining.take 1000
    (findallG1 false queryPat func_body).map
      (fun n => ⟨n, "query".data, "string".data, false, []⟩)

/-- The auth indicator substrings of `GoGinParser._has_auth_middleware`. -/
def goAuthPatternStrings : List (List Char) :=
  (["AuthMiddleware", "jwt", "JWT", "Auth(", "RequireAuth", "Authenticate"]).map
    String.data

/-- Embedding of `GoGinParser._has_auth_middleware`: any indicator substring
in the 300 characters preceding the route. -/
def has_auth_middleware (content : List Char) (route_start : Nat) : Bool :=
  let preceding := seg content (route_start - 300) (route_start - (route_start - 300))
  goAuthPatternStrings.any (fun p => strContains preceding p)

/-- Embedding of `GoGinParser._extract_tags`: a tag from the file name (with
`.go`, `_handler`, `_controller` stripped, excluding `main`/`routes`/`router`)
and a tag from the first path segment, at most two. -/
def extract_tags (file_path path : List Char) : List (List Char) :=
  let tags : List (List Char) :=
    if file_path ≠ [] then
      let filename := strReplace (strReplace (strReplace (baseName file_path)
        ".go".data []) "_handler".data []) "_controller".data []
      if filename ∉ ["main".data, "routes".data, "router".data] then
        [pyTitle filename]
      else []
    else []
  let parts := splitOnChar '/' (stripChar '/' path)
  let tags :=
    match parts with
    | [] => tags
    | p0 :: _ =>
      if p0 ≠ [] then
        let tag := pyTitle (strReplace (strReplace p0 ['-'] [' ']) ['_'] [' '])
        if tag ∉ tags then tags ++ [tag] else tags
      else tags
  tags.take 2

/-- Embedding of `GoGinParser.parse_content` (go_gin_parser.py, lines
77-129).  The route-group prefixes are collected into `groups` exactly as in
the source — and, exactly as in the source, `groups` is never consulted when
endpoint paths are built. -/
def parse_content (content fp : List Char) : List PEndpoint :=
  let _groups : List (List Char × List Char) :=
    (finditer false groupPat content).map (fun m => (cap1 m, cap2 m))
  (finditer true methodPat content).map (fun m =>
    let method := pyUpper (cap1 m)
    let path := cap2 m
    let line_number := countNl content (mstart m) + 1
    let handler_search := seg content (mend m) 100
    let handler_name := match searchFrom false handlerPat handler_search 0 with
      | some hm => cap1 hm
      | none => "handler".data
    let full_path := normalize_path path
    let path_params := (extract_path_params full_path).map
      (fun p => (⟨p, "path".data, "string".data, true, []⟩ : PParam))
    let handler_params := find_handler_params content handler_name
    let auth_required := has_auth_middleware content (mstart m)
    ⟨full_path, method, handler_name, fp, line_number, [], [],
      extract_tags fp full_path, path_params ++ handler_params, auth_required⟩)

end GoGin

namespace Scan

/-- The `API_PATTERNS` list of scan_service.py (lines 33-56), in order; all
are compiled with `re.IGNORECASE` (`COMPILED_API_PATTERNS`). -/
def API_PATTERNS : List Rx :=
  [ .cat (.ch '@') (.cat (.grp (ralts ["app", "router"])) (.cat (.ch '.')
      (.cat (.grp (ralts ["get", "post", "put", "delete", "patch"]))
        (.cat (.star (.cls .spacec)) (.ch '('))))),
    .cat (rstr "@app.route") (.cat (.star (.cls .spacec)) (.ch '(')),
    .cat (rstr "@blueprint.route") (.cat (.star (.cls .spacec)) (.ch '(')),
    .cat (rstr "@api_view") (.cat (.star (.cls .spacec)) (.ch '(')),
    .cat (rstr "APIRouter") (.cat (.star (.cls .spacec)) (.ch '(')),
    .cat (rstr "path") (.cat (.star (.cls .spacec)) (.cat (.ch '(')
      (.cat (.star (.cls .spacec)) (.cls (.inSet quoteChars))))),
    .cat (.ch '.') (.cat (.grp (ralts ["get", "post", "put", "delete", "patch"]))
      (.cat (.star (.cls .spacec)) (.cat (.ch '(')
        (.cat (.star (.cls .spacec)) (.cls (.inSet quoteChars)))))),
    .cat (.ch '@') (.cat (.grp (ralts ["Get", "Post", "Put", "Delete", "Patch"]))
      (.cat (.star (.cls .spacec)) (.ch '('))),
    .cat (rstr "@Controller") (.cat (.star (.cls .spacec)) (.ch '(')),
    .cat (rstr "fastify.") (.grp (ralts ["get", "post", "put", "delete"])),
    .cat (.ch '.') (.cat (.grp (ralts ["GET", "POST", "PUT", "DELETE", "PATCH"]))
      (.cat (.star (.cls .spacec)) (.ch '('))),
    .cat (.grp (ralts ["gin", "fiber", "echo"])) (.cat (.ch '.')
      (.grp (ralts ["GET", "POST", "PUT", "DELETE"]))),
    .cat (.ch '@') (.grp (ralts ["GetMapping", "PostMapping", "PutMapping",
      "DeleteMapping"])),
    rstr "@RequestMapping",
    .cat (.ch '[') (.cat (rstr "Http") (.cat (.grp (ralts ["Get", "Post",
      "Put", "Delete"])) (.ch ']'))) ]

/-- Embedding of `ScanService._is_likely_api_file` (scan_service.py, lines
259-264): true when any precompiled pattern matches somewhere in the
content. -/
def is_likely_api_file (content : List Char) : Bool :=
  API_PATTERNS.any (fun r => (searchFrom true r content 0).isSome)

/-- `ScanService.MIN_FILE_SIZE`. -/
def MIN_FILE_SIZE : Nat := 50

/-- `ScanService.MAX_FILE_SIZE`. -/
def MAX_FILE_SIZE : Nat := 100000

/-- `ScanService.BATCH_SIZE`. -/
def BATCH_SIZE : Nat := 10

/-- The `SUPPORTED_LANGUAGES` list of `ScanService._get_code_files`. -/
def SUPPORTED_LANGUAGES : List (List Char) :=
  (["python", "javascript", "typescript", "go", "java", "csharp"]).map String.data

/-- One file dictionary as produced by `RepositoryScanner.scan_repository`
and consumed by `ScanService._get_code_files` (the fields it reads). -/
structure FileRec where
  path : List Char
  language : List Char
  size : Nat
  deriving DecidableEq

/-- Embedding of `ScanService._get_code_files` (scan_service.py, lines
199-228): keep supported-language files within the size gates whose content
loads and is non-empty, caching the content.  The method returns at line 228;
the pattern pre-filtering block that follows it in the source (lines 229-257)
is unreachable dead code, so no pattern check appears here.  `lookup` models
`scanner.get_file_content` (`Except` error = raised exception, skipped). -/
def get_code_files (lookup : List Char → Except Unit (List Char))
    (files : List FileRec) : List (FileRec × List Char) :=
  files.filterMap (fun f =>
    if f.language ∈ SUPPORTED_LANGUAGES then
      if f.size < MIN_FILE_SIZE ∨ f.size > MAX_FILE_SIZE then none
      else
        match lookup f.path with
        | .ok c => if c ≠ [] then some (f, c) else none
        | .error _ => none
    else none)

/-- Collect one batch's results exactly as the zip loop of
`ScanService._process_files_parallel` does: an exception contributes nothing
(it is recorded in `errors`, which the method never returns), a truthy (non
empty) list extends the aggregate. -/
def collectBatch {F E α : Type} (pairs : List (F × Except E (List α))) : List α :=
  match pairs with
  | [] => []
  | (_, .error _) :: t => collectBatch t
  | (_, .ok l) :: t => (if l.isEmpty then [] else l) ++ collectBatch t

/-- Embedding of the batch loop of `ScanService._process_files_parallel`
(scan_service.py, lines 266-294): slices of `BATCH_SIZE` files processed in
order; `f` gives each file's outcome (`asyncio.gather(..,
return_exceptions=True)` delivers, per task and in task order, either the
result list or the raised exception, modelled as `Except`). -/
def process_files_parallel {F E α : Type} (f : F → Except E (List α)) :
    List F → List α
  | [] => []
  | x :: t =>
    collectBatch (((x :: t).take BATCH_SIZE).map (fun y => (y, f y))) ++
      process_files_parallel f ((x :: t).drop BATCH_SIZE)
termination_by files => files.length
decreasing_by
  simp only [BATCH_SIZE, List.length_drop, List.length_cons]
  omega

end Scan

namespace Upsert

/-- One endpoint document handed to `ScanService._save_endpoints_bulk`; the
fields are the keys the method reads via `doc.get(..)` (each present here
with the code's default already applied). -/
structure EpDoc where
  path : List Char
  method : List Char
  summary : List Char
  description : List Char
  tags : List (List Char)
  parameters : List (List Char)
  request_body : List (List Char × List Char)
  responses : List (List Char)
  auth_required : Bool
  auth_type : Option (List Char)
  file_path : List Char
  deriving DecidableEq

/-- One persisted `APIEndpoint` row (models/api_endpoint.py), restricted to
the columns `_save_endpoints_bulk` touches. -/
structure EpRec where
  repository_id : Nat
  path : List Char
  method : List Char
  summary : List Char
  description : List Char
  tags : List (List Char)
  parameters : List (List Char)
  request_body : List (List Char × List Char)
  responses : List (List Char)
  auth_required : Bool
  auth_type : Option (List Char)
  file_path : List Char
  deriving DecidableEq

/-- The natural key (repository identity, path, method) of a persisted row. -/
def keyR (r : EpRec) : Nat × List Char × List Char :=
  (r.repository_id, r.path, r.method)

/-- The key a document selects by: `(repo_id, doc.get("path", ""),
doc.get("method", "GET").upper())`. -/
def docKey (repo : Nat) (d : EpDoc) : Nat × List Char × List Char :=
  (repo, d.path, pyUpper d.method)

/-- The field-update block of `_save_endpoints_bulk`: every mutable column is
assigned from the document. -/
def setFieldsR (r : EpRec) (d : EpDoc) : EpRec :=
  ⟨r.repository_id, r.path, r.method, d.summary, d.description, d.tags,
    d.parameters, d.request_body, d.responses, d.auth_required, d.auth_type,
    d.file_path⟩

/-- A freshly constructed `APIEndpoint(repository_id, path, method)` with the
update block applied to it. -/
def mkRecFromDoc (repo : Nat) (d : EpDoc) : EpRec :=
  ⟨repo, d.path, pyUpper d.method, d.summary, d.description, d.tags,
    d.parameters, d.request_body, d.responses, d.auth_required, d.auth_type,
    d.file_path⟩

/-- One iteration of the loop of `ScanService._save_endpoints_bulk`
(scan_service.py, lines 391-433) over the session state
(committed rows as materialized in the session's identity map, rows added
but not yet flushed).  `AsyncSessionLocal` is built with `autoflush=False`
(core/database.py), so the `select` sees only committed rows; it returns the
identity-mapped object, hence updates accumulate in place.  Two committed
rows with the same key would make `scalar_one_or_none` raise
`MultipleResultsFound`, which the `except` clause turns into skipping the
document. -/
def saveStep (repo : Nat) (st : List EpRec × List EpRec) (d : EpDoc) :
    List EpRec × List EpRec :=
  let k := docKey repo d
  match st.1.filter (fun r => keyR r = k) with
  | [] => (st.1, st.2 ++ [mkRecFromDoc repo d])
  | [_] => (st.1.map (fun r => if keyR r = k then setFieldsR r d else r), st.2)
  | _ => st

/-- Embedding of `ScanService._save_endpoints_bulk`: fold the loop over the
documents starting from the committed rows and no pending inserts, then
commit (committed updates plus flushed inserts). -/
def save_endpoints_bulk (repo : Nat) (committed : List EpRec)
    (docs : List EpDoc) : List EpRec :=
  let st := docs.foldl (saveStep repo) (committed, [])
  st.1 ++ st.2

/-- Fields of a row after the whole document list has been processed: each
matching document overwrites the mutable fields in turn. -/
def updByDocs (repo : Nat) (docs : List EpDoc) (r : EpRec) : EpRec :=
  docs.foldl (fun r d => if docKey repo d = keyR r then setFieldsR r d else r) r

/-- The documents whose key matches no committed row: each of them becomes a
fresh insert. -/
def freshDocs (repo : Nat) (committed : List EpRec) (docs : List EpDoc) :
    List EpDoc :=
  docs.filter (fun d => ¬ committed.any (fun r => keyR r = docKey repo d))

end Upsert

namespace Registry

/-- One registered framework parser as the `ParserRegistry` sees it: its
`FRAMEWORK_NAME`, `SUPPORTED_EXTENSIONS` and `FRAMEWORK_INDICATORS` class
attributes (base_parser.py). -/
structure FwParser where
  name : List Char
  exts : List (List Char)
  indicators : List (List Char)
  deriving DecidableEq

/-- Embedding of `BaseParser.detect_framework` (base_parser.py, lines
121-134): true when any indicator substring occurs in the content. -/
def detectFw (p : FwParser) (content : List Char) : Bool :=
  p.indicators.any (fun ind => strContains content ind)

/-- The `ParserRegistry._parsers` dict: insertion-ordered name/parser
pairs. -/
abbrev Reg := List (List Char × FwParser)

/-- Embedding of `ParserRegistry.register`: Python dict assignment — an
existing key keeps its position and gets the new value, a new key is
appended. -/
def register (reg : Reg) (p : FwParser) : Reg :=
  if reg.any (fun e => e.1 = p.name) then
    reg.map (fun e => if e.1 = p.name then (e.1, p) else e)
  else reg ++ [(p.name, p)]

/-- Embedding of the parser lookup method of `ParserRegistry` (a plain
`dict.get` on the name). -/
def lookupParser (reg : Reg) (n : List Char) : Option FwParser :=
  (reg.find? (fun e => e.1 = n)).map (·.2)

/-- Embedding of `ParserRegistry.detect_framework` (base_parser.py, lines
190-206): iterate the dict values in insertion order, return the first
parser whose extensions contain the file extension and whose
`detect_framework(content)` is true. -/
def detect_framework (reg : Reg) (content ext : List Char) : Option FwParser :=
  match reg with
  | [] => none
  | (_, p) :: t =>
    if p.exts.contains ext then
      if detectFw p content then some p else detect_framework t content ext
    else detect_framework t content ext

/-- The `FlaskParser` class attributes (flask_parser.py). -/
def flaskRec : FwParser :=
  ⟨"flask".data, [".py".data],
    (["from flask import", "from flask_restful import", "Flask(__name__)",
      "@app.route", "@blueprint.route", "flask.Blueprint"]).map String.data⟩

/-- The `ExpressParser` class attributes (express_parser.py). -/
def expressRec : FwParser :=
  ⟨"express".data, [".js".data, ".ts".data, ".mjs".data],
    (["express()", "require(" ++ "\x27express\x27)", "require(\"express\")",
      "from \x27express\x27", "from \"express\"", "express.Router()"]).map
      String.data⟩

/-- The `DjangoRESTParser` class attributes (django_rest_parser.py). -/
def djangoRec : FwParser :=
  ⟨"django_rest".data, [".py".data],
    (["from rest_framework", "rest_framework.views", "rest_framework.viewsets",
      "rest_framework.decorators", "@api_view", "APIView", "ViewSet",
      "ModelViewSet"]).map String.data⟩

/-- The `SpringBootParser` class attributes (spring_boot_parser.py). -/
def springRec : FwParser :=
  ⟨"spring_boot".data, [".java".data, ".kt".data],
    (["@RestController", "@Controller", "@RequestMapping", "@GetMapping",
      "@PostMapping", "@PutMapping", "@DeleteMapping", "@PatchMapping",
      "org.springframework.web", "import org.springframework"]).map
      String.data⟩

/-- The `GoGinParser` class attributes (go_gin_parser.py). -/
def goGinRec : FwParser :=
  ⟨"go_gin".data, [".go".data],
    (["github.com/gin-gonic/gin", "github.com/labstack/echo", "gin.Default()",
      "gin.New()", "echo.New()", ".GET(", ".POST(", ".PUT(", ".DELETE("]).map
      String.data⟩

/-- The registry as built by `parsers/__init__.py`: the five parsers
registered in source order. -/
def defaultRegistry : Reg :=
  [expressRec, flaskRec, djangoRec, springRec, goGinRec].foldl register []

end Registry

namespace Scanner

/-- `RepositoryScanner.IGNORED_DIRS` (scanner.py, lines 15-18). -/
def IGNORED_DIRS : List (List Char) :=
  ([".git", ".github", ".vscode", ".idea", "__pycache__", "node_modules",
    "venv", "env", "dist", "build", "coverage", "target", "bin", "obj"]).map
    String.data

/-- `RepositoryScanner.IGNORED_EXTENSIONS` (scanner.py, lines 20-31),
transcribed as written (the lock-file names are full file names that can
never equal a `Path.suffix`, exactly as in the source). -/
def IGNORED_EXTENSIONS : List (List Char) :=
  ([".png", ".jpg", ".jpeg", ".gif", ".ico", ".svg", ".webp",
    ".pdf", ".doc", ".docx", ".xls", ".xlsx", ".ppt", ".pptx",
    ".zip", ".tar", ".gz", ".rar", ".7z",
    ".exe", ".dll", ".so", ".dylib", ".class", ".pyc", ".o",
    ".lock", "package-lock.json", "yarn.lock", "poetry.lock",
    "Cargo.lock"]).map String.data

/-- `RepositoryScanner.LANGUAGE_MAP` (scanner.py, lines 34-60). -/
def LANGUAGE_MAP : List (List Char × List Char) :=
  ([(".py", "python"), (".js", "javascript"), (".jsx", "javascript"),
    (".ts", "typescript"), (".tsx", "typescript"), (".go", "go"),
    (".java", "java"), (".rb", "ruby"), (".php", "php"), (".cs", "csharp"),
    (".rs", "rust"), (".swift", "swift"), (".kt", "kotlin"), (".c", "c"),
    (".cpp", "cpp"), (".h", "c"), (".hpp", "cpp"), (".html", "html"),
    (".css", "css"), (".sql", "sql"), (".sh", "shell"), (".yaml", "yaml"),
    (".yml", "yaml"), (".json", "json"), (".md", "markdown")]).map
    (fun p => (p.1.data, p.2.data))

/-- A directory tree rooted at the scanned repository: plain files (name,
size) and named subdirectories.  This is the input `os.walk` traverses. -/
inductive DirTree where
  | node (files : List (List Char × Nat)) (dirs : List (List Char × DirTree)) : DirTree

/-- One entry of the list `scan_repository` returns (the fields relevant
here; the `metadata` enrichment for Python files does not alter the entry
selection).  `path` keeps the repository-relative segments that the source
joins with `/`. -/
structure ScanEntry where
  path : List (List Char)
  language : List Char
  size : Nat
  extension : List Char
  deriving DecidableEq

/-- Should `os.walk` descend into / keep directory `d`?  scan_repository
prunes `dirs` in place: `d not in IGNORED_DIRS and not d.startswith(".")`. -/
def keepDir (d : List Char) : Bool :=
  d ∉ IGNORED_DIRS && !(['.'].isPrefixOf d)

/-- Should a plain file be listed?  Files starting with `.` are skipped, then
files whose lowercased `Path.suffix` is in `IGNORED_EXTENSIONS`. -/
def keepFile (name : List Char) : Bool :=
  !(['.'].isPrefixOf name) && pyLower (pathSuffix name) ∉ IGNORED_EXTENSIONS

/-- The `ScanEntry` list contributed by the plain files of one directory. -/
def scanFiles (pre : List (List Char)) (files : List (List Char × Nat)) :
    List ScanEntry :=
  files.filterMap (fun fe =>
    if keepFile fe.1 then
      let ext := pyLower (pathSuffix fe.1)
      some ⟨pre ++ [fe.1], (LANGUAGE_MAP.lookup ext).getD "unknown".data,
        fe.2, ext⟩
    else none)

mutual

/-- Embedding of the `os.walk` loop of `RepositoryScanner.scan_repository`
(scanner.py, lines 79-116): top-down traversal, files of the current
directory first, then the kept subdirectories in order; `pre` is the
relative path of the current directory. -/
def scanTree : DirTree → List (List Char) → List ScanEntry
  | .node files dirs, pre => scanFiles pre files ++ scanDirs dirs pre

/-- Walk the kept subdirectories in order. -/
def scanDirs : List (List Char × DirTree) → List (List Char) → List ScanEntry
  | [], _ => []
  | (d, t) :: rest, pre =>
    (if keepDir d then scanTree t (pre ++ [d]) else []) ++ scanDirs rest pre

end

/-- Filesystem error raised by `RepositoryScanner.get_file_content`. -/
inductive FsError where
  | valueError : FsError
  | fileNotFoundError : FsError
  deriving DecidableEq

/-- POSIX path resolution of the relative segments `rel` against the
(already resolved) absolute directory `acc`: `..` pops one segment (a no-op
at the filesystem root), `.` is dropped.  This is what
`(repo_path / rel).resolve()` computes in the absence of symlinks. -/
def resolveSegs (acc : List (List Char)) : List (List Char) → List (List Char)
  | [] => acc
  | seg :: rest =>
    if seg = "..".data then resolveSegs acc.dropLast rest
    else if seg = ".".data then resolveSegs acc rest
    else resolveSegs (acc ++ [seg]) rest

/-- Embedding of `RepositoryScanner.get_file_content` (scanner.py, lines
118-139): resolve the joined path, raise `ValueError` unless it is inside
the resolved repository root (`relative_to` succeeds exactly when the root
is a prefix), raise `FileNotFoundError` when nothing exists there, otherwise
return the content.  `fs` models the filesystem: the decoded content of each
existing file at its resolved absolute path. -/
def get_file_content (fs : List (List Char) → Option (List Char))
    (root : List (List Char)) (rel : List (List Char)) :
    Except FsError (List Char) :=
  let full := resolveSegs root rel
  if root.isPrefixOf full then
    match fs full with
    | some c => .ok c
    | none => .error .fileNotFoundError
  else .error .valueError

end Scanner

/-- Unwrapping of one per-file outcome as the batch loop sees it: a raised
exception contributes no endpoints. -/
def exceptOut {E α : Type} : Except E (List α) → List α
  | .ok l => l
  | .error _ => []

namespace Ex

/-- A Django file whose `@api_view` list names a word outside the HTTP verb
set. -/
def fooContent : List Char :=
  "@api_view([\"FOO\"])\ndef foo():\n    return 1\n".data

/-- The endpoint `DjangoRESTParser.parse_content` extracts from
`fooContent`. -/
def fooEndpoint : PEndpoint :=
  ⟨"/foo".data, "FOO".data, "foo".data, "views.py".data, 1, [], [],
    ["API".data], [], false⟩

/-- A Go file that registers a route group `/api` and a route under a
variable bound to that group. -/
def goContent : List Char :=
  "g := r.Group(\"/api\")\ng.GET(\"/users\", GetUsers)\n".data

/-- The endpoint `GoGinParser.parse_content` extracts from `goContent`. -/
def goEndpoint : PEndpoint :=
  ⟨"/users".data, "GET".data, "GetUsers".data, "routes.go".data, 2, [], [],
    ["Users".data], [], false⟩

/-- Sixty times `x`: a supported-language, size-admissible content that
matches none of the route pre-filter patterns. -/
def xContent : List Char := List.replicate 60 'x'

/-- The file record carrying `xContent`. -/
def xFile : Scan.FileRec := ⟨"a.py".data, "python".data, 60⟩

/-- A content loader that always succeeds with `xContent`. -/
def xLookup : List Char → Except Unit (List Char) := fun _ => .ok xContent

/-- First endpoint document for the duplicate-key upsert scenario. -/
def doc1 : Upsert.EpDoc :=
  ⟨"/a".data, "get".data, "s1".data, [], [], [], [], [], false, none,
    "f1".data⟩

/-- Second endpoint document with the same (path, method) key as `doc1`. -/
def doc2 : Upsert.EpDoc :=
  ⟨"/a".data, "GET".data, "s2".data, [], [], [], [], [], false, none,
    "f2".data⟩

/-- A pre-existing persisted row with the key of `doc1` and `doc2`. -/
def rec0 : Upsert.EpRec :=
  ⟨0, "/a".data, "GET".data, "old".data, [], [], [], [], [], false, none,
    "f0".data⟩

/-- A per-file outcome function for the batch-processing scenario: file `1`
raises, the others return one endpoint each. -/
def batchF : Nat → Except Unit (List Nat) :=
  fun n => if n = 1 then .error () else .ok [n + 100]

/-- A small repository tree with a hidden file, a hidden directory and a
vendored directory. -/
def tree0 : Scanner.DirTree :=
  .node [("main.py".data, 100), (".env".data, 30)]
    [(".git".data, .node [("config".data, 10)] []),
     ("node_modules".data, .node [("x.js".data, 10)] []),
     ("src".data, .node [("app.js".data, 60)] [])]

/-- A filesystem with exactly one file `/home/r/a.py`. -/
def fs0 : List (List Char) → Option (List Char) :=
  fun p => if p = ["home".data, "r".data, "a.py".data] then some "hi".data
    else none

/-- The repository root of `fs0`. -/
def root0 : List (List Char) := ["home".data, "r".data]

/-- The entry `scan_repository` produces for `src/app.js` of `tree0`. -/
def entry0 : Scanner.ScanEntry :=
  ⟨["src".data, "app.js".data], "javascript".data, 60, ".js".data⟩

end Ex

/-! ## Theorems -/

/-- C1: `normalize_path` is claimed idempotent on all inputs, including
strings with repeated trailing slashes.  It is not: the function (whose
docstring promises "no trailing slash") strips only a single trailing slash,
so `normalize_path "/a//" = "/a/"` still ends in a slash and a second
application changes it to `/a`. -/
theorem normalize_path_not_idempotent :
    normalize_path (normalize_path "/a//".data) ≠ normalize_path "/a//".data ∧
    normalize_path "/a//".data = "/a/".data ∧
    normalize_path (normalize_path "/a//".data) = "/a".data := by
  decide

/-- C2 counterexample: on a file whose `@api_view` list names the word
`FOO`, `DjangoRESTParser.parse_content` returns an endpoint whose method is
`FOO`, which is outside the fixed verb set of the `HTTPMethod` enum. -/
theorem django_parse_content_emits_nonverb_method :
    Django.parse_content Ex.fooContent "views.py".data = [Ex.fooEndpoint] ∧
    Ex.fooEndpoint.method ∉ HTTPMethodValues := by
  decide

/-- C2 (amended): every endpoint emitted by the `@api_view` branch of the
Django REST parser carries as its method the uppercasing of one of the
quoted words of the decorator's method list — the listed words are passed
through without any validation against the fixed verb set. -/
theorem django_api_view_method_is_uppercased_listed_word
    (content fp : List Char) (e : PEndpoint)
    (he : e ∈ Django.parse_api_view_functions content fp) :
    ∃ m ∈ finditer false Django.apiViewDecPat content,
      ∃ w ∈ findallG1 false Django.quotedWordPat (cap1 m),
        e.method = pyUpper w := by
  unfold Django.parse_api_view_functions at he
  rw [List.mem_flatMap] at he
  obtain ⟨m, hm, he⟩ := he
  refine ⟨m, hm, ?_⟩
  cases hs : searchFrom false Django.defNamePat (seg content (mend m) 200) 0 with
  | none => rw [hs] at he; simp at he
  | some fm =>
    rw [hs] at he
    simp only [List.mem_map] at he
    obtain ⟨w, hw, rfl⟩ := he
    exact ⟨w, hw, rfl⟩

/-- Witness for the amended C2 theorem at the concrete `FOO` input. -/
theorem django_api_view_method_is_uppercased_listed_word_witness :
    ∃ m ∈ finditer false Django.apiViewDecPat Ex.fooContent,
      ∃ w ∈ findallG1 false Django.quotedWordPat (cap1 m),
        Ex.fooEndpoint.method = pyUpper w :=
  django_api_view_method_is_uppercased_listed_word Ex.fooContent
    "views.py".data Ex.fooEndpoint (by decide)

/-- C3 counterexample: on a Go file with a route group `g := r.Group("/api")`
and a route `g.GET("/users", ...)` registered on the group, the parser
collects the `/api` prefix but the returned endpoint path is plain
`/users`: the group prefix is not prepended. -/
theorem go_gin_group_prefix_not_prepended :
    GoGin.parse_content Ex.goContent "routes.go".data = [Ex.goEndpoint] ∧
    (finditer false GoGin.groupPat Ex.goContent).map cap2 = ["/api".data] ∧
    strContains Ex.goEndpoint.path "/api".data = false := by
  decide

/-- C3 (amended): every endpoint returned by `GoGinParser.parse_content` has
as its path exactly the normalized literal path captured by the route-call
regex; the collected group dictionary is never consulted. -/
theorem go_gin_endpoint_path_is_normalized_literal
    (content fp : List Char) (e : PEndpoint)
    (he : e ∈ GoGin.parse_content content fp) :
    ∃ m ∈ finditer true GoGin.methodPat content,
      e.path = normalize_path (cap2 m) := by
  unfold GoGin.parse_content at he
  rw [List.mem_map] at he
  obtain ⟨m, hm, rfl⟩ := he
  exact ⟨m, hm, rfl⟩

/-- Witness for the amended C3 theorem at the concrete group input. -/
theorem go_gin_endpoint_path_is_normalized_literal_witness :
    ∃ m ∈ finditer true GoGin.methodPat Ex.goContent,
      Ex.goEndpoint.path = normalize_path (cap2 m) :=
  go_gin_endpoint_path_is_normalized_literal Ex.goContent "routes.go".data
    Ex.goEndpoint (by decide)

/-- C4 counterexample: a supported-language file of admissible size whose
content (sixty `x`s) matches none of the precompiled route pre-filter
patterns is still selected by `_get_code_files`: the candidate-selection
stage never consults the patterns (the pre-filter block sits after the
method's `return` and is unreachable). -/
theorem get_code_files_admits_pattern_free_file :
    Scan.get_code_files Ex.xLookup [Ex.xFile] = [(Ex.xFile, Ex.xContent)] ∧
    Scan.is_likely_api_file Ex.xContent = false := by
  decide

/-- C4 (amended): candidate selection depends only on language, size gates
and non-empty loadable content — a file is selected exactly when its
language is supported, its size lies within the byte gates, and its content
loads non-empty; the route pre-filter patterns play no part. -/
theorem get_code_files_selects_by_language_size_content
    (lookup : List Char → Except Unit (List Char)) (files : List Scan.FileRec)
    (f : Scan.FileRec) (c : List Char) :
    (f, c) ∈ Scan.get_code_files lookup files ↔
      f ∈ files ∧ f.language ∈ Scan.SUPPORTED_LANGUAGES ∧
      Scan.MIN_FILE_SIZE ≤ f.size ∧ f.size ≤ Scan.MAX_FILE_SIZE ∧
      lookup f.path = .ok c ∧ c ≠ [] := by
  unfold Scan.get_code_files
  rw [List.mem_filterMap]
  constructor
  · rintro ⟨a, ha, hg⟩
    by_cases h1 : a.language ∈ Scan.SUPPORTED_LANGUAGES
    · rw [if_pos h1] at hg
      by_cases h2 : a.size < Scan.MIN_FILE_SIZE ∨ a.size > Scan.MAX_FILE_SIZE
      · rw [if_pos h2] at hg; cases hg
      · rw [if_neg h2] at hg
        cases hl : lookup a.path with
        | error err => rw [hl] at hg; cases hg
        | ok c0 =>
          rw [hl] at hg
          dsimp only at hg
          by_cases h3 : c0 ≠ []
          · rw [if_pos h3] at hg
            obtain ⟨rfl, rfl⟩ : a = f ∧ c0 = c := by
              injection hg with hg
              exact ⟨congrArg Prod.fst hg, congrArg Prod.snd hg⟩
            exact ⟨ha, h1, by omega, by omega, hl, h3⟩
          · rw [if_neg h3] at hg; cases hg
    · rw [if_neg h1] at hg; cases hg
  · rintro ⟨hf, hlang, hmin, hmax, hlook, hc⟩
    refine ⟨f, hf, ?_⟩
    rw [if_pos hlang, if_neg (show ¬(f.size < Scan.MIN_FILE_SIZE ∨
      f.size > Scan.MAX_FILE_SIZE) by omega), hlook]
    dsimp only
    rw [if_pos hc]

/-- Helper: one batch collects exactly the successful per-file lists, in
order; exceptions and empty results contribute nothing. -/
theorem collectBatch_eq_flatMap {F E α : Type} (f : F → Except E (List α))
    (b : List F) :
    Scan.collectBatch (b.map (fun y => (y, f y))) =
      b.flatMap (fun x => exceptOut (f x)) := by
  induction b with
  | nil => rfl
  | cons x t ih =>
    cases hfx : f x with
    | error e =>
      simp only [List.map_cons, hfx, Scan.collectBatch, ih, List.flatMap_cons,
        exceptOut, List.nil_append]
    | ok l =>
      cases l with
      | nil =>
        simp only [List.map_cons, hfx, Scan.collectBatch, ih,
          List.flatMap_cons, exceptOut, List.isEmpty_nil, if_true,
          List.nil_append]
      | cons a l' =>
        simp only [List.map_cons, hfx, Scan.collectBatch, ih,
          List.flatMap_cons, exceptOut, List.isEmpty_cons, if_false,
          Bool.false_eq_true]

/-- C5: the batch loop of `_process_files_parallel` aggregates exactly the
successful per-file endpoint lists: a file whose task raised contributes
nothing, every other file's list appears (same batch or later ones), and the
loop itself is total — the captured exception never escapes it. -/
theorem process_files_parallel_isolates_failures {F E α : Type}
    (f : F → Except E (List α)) (files : List F) :
    Scan.process_files_parallel f files =
      files.flatMap (fun x => exceptOut (f x)) ∧
    ∀ x ∈ files, ∀ l, f x = .ok l → ∀ d ∈ l,
      d ∈ Scan.process_files_parallel f files := by
  have main : ∀ n (fs : List F), fs.length ≤ n →
      Scan.process_files_parallel f fs =
        fs.flatMap (fun x => exceptOut (f x)) := by
    intro n
    induction n with
    | zero =>
      intro fs h
      interval_cases hfs : fs.length
      · cases fs with
        | nil => rw [Scan.process_files_parallel]; rfl
        | cons x t => simp at hfs
    | succ n ih =>
      intro fs h
      match fs with
      | [] => rw [Scan.process_files_parallel]; rfl
      | x :: t =>
        rw [Scan.process_files_parallel, collectBatch_eq_flatMap,
          ih ((x :: t).drop Scan.BATCH_SIZE)
            (by simp only [Scan.BATCH_SIZE, List.length_drop,
                  List.length_cons] at h ⊢
                omega),
          ← List.flatMap_append, List.take_append_drop]
  refine ⟨main files.length files le_rfl, ?_⟩
  intro x hx l hfl d hd
  rw [main files.length files le_rfl]
  exact List.mem_flatMap.mpr ⟨x, hx, by rw [hfl]; exact hd⟩

/-- Witness for the C5 theorem: with file `1` raising, the endpoint of file
`2` in the same batch still appears in the aggregate. -/
theorem process_files_parallel_isolates_failures_witness :
    102 ∈ Scan.process_files_parallel Ex.batchF [0, 1, 2] :=
  (process_files_parallel_isolates_failures Ex.batchF [0, 1, 2]).2 2
    (by decide) [102] (by decide) 102 (by decide)

/-- C6 counterexample: starting from an empty table, saving two documents
that share the key `(0, "/a", "GET")` persists two rows with that key — the
session is built with `autoflush=False`, so the second document's lookup does
not see the first document's pending insert and a second row is created. -/
theorem save_endpoints_bulk_duplicate_key_not_unique :
    ((Upsert.save_endpoints_bulk 0 [] [Ex.doc1, Ex.doc2]).filter
      (fun r => Upsert.keyR r = (0, "/a".data, "GET".data))).length = 2 := by
  decide

/-- Helper: the field-update block never touches the key columns. -/
theorem keyR_setFieldsR (r : Upsert.EpRec) (d : Upsert.EpDoc) :
    Upsert.keyR (Upsert.setFieldsR r d) = Upsert.keyR r := rfl

/-- Helper: a second full field update overwrites the first. -/
theorem setFieldsR_setFieldsR (r : Upsert.EpRec) (d1 d2 : Upsert.EpDoc) :
    Upsert.setFieldsR (Upsert.setFieldsR r d1) d2 = Upsert.setFieldsR r d2 :=
  rfl

/-- Helper: `getLast?` of a cons with a non-empty tail is the tail's. -/
theorem getLast?_cons_of_ne_nil {α : Type} (a : α) {l : List α} (h : l ≠ []) :
    (a :: l).getLast? = l.getLast? := by
  cases l with
  | nil => exact absurd rfl h
  | cons b t => exact List.getLast?_cons_cons

/-- Helper: applying the documents in order leaves a row with the fields of
the last matching document (or untouched when none matches). -/
theorem updByDocs_getLast (repo : Nat) (ds : List Upsert.EpDoc) :
    ∀ r : Upsert.EpRec,
      Upsert.updByDocs repo ds r =
        ((ds.filter (fun d => Upsert.docKey repo d = Upsert.keyR r)).getLast?).elim
          r (Upsert.setFieldsR r) := by
  induction ds with
  | nil => intro r; rfl
  | cons d t ih =>
    intro r
    by_cases h : Upsert.docKey repo d = Upsert.keyR r
    · have step : Upsert.updByDocs repo (d :: t) r =
          Upsert.updByDocs repo t (Upsert.setFieldsR r d) := by
        simp only [Upsert.updByDocs, List.foldl_cons, if_pos h]
      rw [step, ih (Upsert.setFieldsR r d)]
      simp only [keyR_setFieldsR]
      rw [List.filter_cons_of_pos (by simp [h])]
      cases hl : (t.filter (fun d₂ => Upsert.docKey repo d₂ = Upsert.keyR r)).getLast? with
      | none =>
        rw [List.getLast?_eq_none_iff.mp hl]
        simp [Option.elim]
      | some d₂ =>
        have hne : t.filter (fun d₂ => Upsert.docKey repo d₂ = Upsert.keyR r) ≠ [] := by
          intro hc; rw [hc] at hl; cases hl
        rw [getLast?_cons_of_ne_nil d hne, hl]
        simp [Option.elim, setFieldsR_setFieldsR]
    · have step : Upsert.updByDocs repo (d :: t) r = Upsert.updByDocs repo t r := by
        simp only [Upsert.updByDocs, List.foldl_cons, if_neg h]
      rw [step, ih r, List.filter_cons_of_neg (by simp [h])]

/-- Helper: the in-place update of one document does not change which keys
are present. -/
theorem any_key_map_applyOne (repo : Nat) (d : Upsert.EpDoc)
    (l : List Upsert.EpRec) (k : Nat × List Char × List Char) :
    (l.map (fun r => if Upsert.keyR r = Upsert.docKey repo d
        then Upsert.setFieldsR r d else r)).any (fun r => Upsert.keyR r = k) =
      l.any (fun r => Upsert.keyR r = k) := by
  induction l with
  | nil => rfl
  | cons r t ih =>
    simp only [List.map_cons, List.any_cons, ih]
    congr 1
    by_cases h : Upsert.keyR r = Upsert.docKey repo d <;>
      simp [h, keyR_setFieldsR]

/-- Helper: under pairwise-distinct keys, a key selects no row or exactly
one. -/
theorem filter_key_of_pairwise {l : List Upsert.EpRec}
    (hp : l.Pairwise (fun a b => Upsert.keyR a ≠ Upsert.keyR b))
    (k : Nat × List Char × List Char) :
    l.filter (fun r => Upsert.keyR r = k) = [] ∨
      ∃ r₀, l.filter (fun r => Upsert.keyR r = k) = [r₀] := by
  induction l with
  | nil => exact Or.inl rfl
  | cons r t ih =>
    rcases List.pairwise_cons.mp hp with ⟨h1, h2⟩
    by_cases hk : Upsert.keyR r = k
    · refine Or.inr ⟨r, ?_⟩
      rw [List.filter_cons_of_pos (by simp [hk])]
      have : t.filter (fun r => Upsert.keyR r = k) = [] := by
        rw [List.filter_eq_nil_iff]
        intro a ha
        simp only [decide_eq_true_eq]
        intro hh
        exact h1 a ha (hk.trans hh.symm)
      rw [this]
    · rw [List.filter_cons_of_neg (by simp [hk])]
      exact ih h2

/-- Helper: the full fold of `_save_endpoints_bulk` over the session state.
Existing rows are updated in place by each matching document in order, and
every document whose key has no committed row is appended as a fresh
insert — pending inserts never become visible to later lookups. -/
theorem save_foldl (repo : Nat) (docs : List Upsert.EpDoc) :
    ∀ (committed pending : List Upsert.EpRec),
      committed.Pairwise (fun a b => Upsert.keyR a ≠ Upsert.keyR b) →
      docs.foldl (Upsert.saveStep repo) (committed, pending) =
        (committed.map (Upsert.updByDocs repo docs),
         pending ++ (Upsert.freshDocs repo committed docs).map
           (Upsert.mkRecFromDoc repo)) := by
  induction docs with
  | nil =>
    intro committed pending hp
    have h1 : committed.map (Upsert.updByDocs repo []) = committed := by
      have he : ∀ r ∈ committed, Upsert.updByDocs repo [] r = id r :=
        fun r _ => rfl
      rw [List.map_congr_left he, List.map_id]
    rw [List.foldl_nil, h1]
    unfold Upsert.freshDocs
    simp
  | cons d ds ih =>
    intro committed pending hp
    rw [List.foldl_cons]
    rcases filter_key_of_pairwise hp (Upsert.docKey repo d) with hfil | ⟨r₀, hfil⟩
    · have hstep : Upsert.saveStep repo (committed, pending) d =
          (committed, pending ++ [Upsert.mkRecFromDoc repo d]) := by
        simp only [Upsert.saveStep]
        rw [hfil]
      rw [hstep, ih committed _ hp]
      have hnone : ∀ r ∈ committed, ¬ Upsert.keyR r = Upsert.docKey repo d := by
        intro r hr
        have := List.filter_eq_nil_iff.mp hfil r hr
        simpa using this
      have hmap : committed.map (Upsert.updByDocs repo ds) =
          committed.map (Upsert.updByDocs repo (d :: ds)) := by
        apply List.map_congr_left
        intro r hr
        have step : Upsert.updByDocs repo (d :: ds) r =
            Upsert.updByDocs repo ds
              (if Upsert.docKey repo d = Upsert.keyR r then Upsert.setFieldsR r d else r) := rfl
        rw [step, if_neg (fun hh => hnone r hr hh.symm)]
      have hfresh : Upsert.freshDocs repo committed (d :: ds) =
          d :: Upsert.freshDocs repo committed ds := by
        unfold Upsert.freshDocs
        rw [List.filter_cons_of_pos]
        simp only [decide_eq_true_eq]
        intro hany
        rcases List.any_eq_true.mp hany with ⟨r, hr, hkr⟩
        exact hnone r hr (by simpa using hkr)
      rw [hmap, hfresh]
      simp [List.append_assoc]
    · have hstep : Upsert.saveStep repo (committed, pending) d =
          (committed.map (fun r =>
            if Upsert.keyR r = Upsert.docKey repo d then Upsert.setFieldsR r d else r),
           pending) := by
        simp only [Upsert.saveStep]
        rw [hfil]
      rw [hstep]
      have hkeys : ∀ r : Upsert.EpRec,
          Upsert.keyR (if Upsert.keyR r = Upsert.docKey repo d
            then Upsert.setFieldsR r d else r) = Upsert.keyR r := by
        intro r
        by_cases h : Upsert.keyR r = Upsert.docKey repo d <;> simp [h, keyR_setFieldsR]
      have hp' : (committed.map (fun r =>
          if Upsert.keyR r = Upsert.docKey repo d then Upsert.setFieldsR r d else r)).Pairwise
          (fun a b => Upsert.keyR a ≠ Upsert.keyR b) := by
        rw [List.pairwise_map]
        exact hp.imp (fun hab => by rw [hkeys, hkeys]; exact hab)
      rw [ih _ pending hp']
      have hfresh1 : Upsert.freshDocs repo (committed.map (fun r =>
          if Upsert.keyR r = Upsert.docKey repo d then Upsert.setFieldsR r d else r)) ds =
          Upsert.freshDocs repo committed ds := by
        unfold Upsert.freshDocs
        apply List.filter_congr
        intro d₂ _
        rw [any_key_map_applyOne]
      have hin : Upsert.keyR r₀ = Upsert.docKey repo d ∧ r₀ ∈ committed := by
        have : r₀ ∈ committed.filter (fun r => Upsert.keyR r = Upsert.docKey repo d) := by
          rw [hfil]; exact List.mem_singleton.mpr rfl
        rcases List.mem_filter.mp this with ⟨hm, hdec⟩
        exact ⟨by simpa using hdec, hm⟩
      have hfresh2 : Upsert.freshDocs repo committed (d :: ds) =
          Upsert.freshDocs repo committed ds := by
        unfold Upsert.freshDocs
        rw [List.filter_cons_of_neg]
        simp only [decide_eq_true_eq, not_not]
        exact List.any_eq_true.mpr ⟨r₀, hin.2, by simp [hin.1]⟩
      rw [hfresh1, hfresh2]
      have hmap : (committed.map (fun r =>
          if Upsert.keyR r = Upsert.docKey repo d then Upsert.setFieldsR r d else r)).map
            (Upsert.updByDocs repo ds) =
          committed.map (Upsert.updByDocs repo (d :: ds)) := by
        rw [List.map_map]
        apply List.map_congr_left
        intro r _
        have step : Upsert.updByDocs repo (d :: ds) r =
            Upsert.updByDocs repo ds
              (if Upsert.docKey repo d = Upsert.keyR r then Upsert.setFieldsR r d else r) := rfl
        rw [Function.comp_apply, step]
        by_cases h : Upsert.keyR r = Upsert.docKey repo d
        · rw [if_pos h, if_pos h.symm]
        · rw [if_neg h, if_neg (fun hh => h hh.symm)]
      rw [hmap]

/-- C6 (amended): provided the table held at most one row per key before the
save, the committed result is exactly: every pre-existing row updated in
place by its matching documents (the last-processed matching document's
fields win, the key columns untouched), plus one freshly inserted row per
document whose key had no pre-existing row — so several input documents
sharing a key that had no pre-existing row each insert their own row
(`autoflush=False` hides pending inserts from the in-loop lookup), while a
key with a pre-existing row keeps exactly one row. -/
theorem save_endpoints_bulk_upsert_characterization (repo : Nat)
    (committed : List Upsert.EpRec) (docs : List Upsert.EpDoc)
    (hp : committed.Pairwise (fun a b => Upsert.keyR a ≠ Upsert.keyR b)) :
    Upsert.save_endpoints_bulk repo committed docs =
      committed.map (Upsert.updByDocs repo docs) ++
        (Upsert.freshDocs repo committed docs).map (Upsert.mkRecFromDoc repo) ∧
    ∀ (r : Upsert.EpRec) (ds : List Upsert.EpDoc),
      Upsert.updByDocs repo ds r =
        ((ds.filter (fun d => Upsert.docKey repo d = Upsert.keyR r)).getLast?).elim
          r (Upsert.setFieldsR r) := by
  constructor
  · unfold Upsert.save_endpoints_bulk
    rw [save_foldl repo docs committed [] hp]
    simp
  · intro r ds
    exact updByDocs_getLast repo ds r

/-- Witness for the amended C6 theorem: one pre-existing row, one matching
document. -/
theorem save_endpoints_bulk_upsert_characterization_witness :
    Upsert.save_endpoints_bulk 0 [Ex.rec0] [Ex.doc1] =
      [Ex.rec0].map (Upsert.updByDocs 0 [Ex.doc1]) ++
        (Upsert.freshDocs 0 [Ex.rec0] [Ex.doc1]).map (Upsert.mkRecFromDoc 0) ∧
    ∀ (r : Upsert.EpRec) (ds : List Upsert.EpDoc),
      Upsert.updByDocs 0 ds r =
        ((ds.filter (fun d => Upsert.docKey 0 d = Upsert.keyR r)).getLast?).elim
          r (Upsert.setFieldsR r) :=
  save_endpoints_bulk_upsert_characterization 0 [Ex.rec0] [Ex.doc1] (by simp)

/-- Helper: when the name is already registered, the dict-style value
replacement leaves the new parser at the original position, and lookup by
that name now yields it. -/
theorem get_parser_map_replace (t : Registry.Reg) (p : Registry.FwParser)
    (h : t.any (fun e => e.1 = p.name) = true) :
    Registry.lookupParser
      (t.map (fun e => if e.1 = p.name then (e.1, p) else e)) p.name =
      some p := by
  induction t with
  | nil => simp at h
  | cons e t ih =>
    simp only [List.map_cons]
    by_cases he : e.1 = p.name
    · rw [if_pos he]
      unfold Registry.lookupParser
      rw [List.find?_cons_of_pos _ (by simp [he])]
      rfl
    · rw [if_neg he]
      unfold Registry.lookupParser
      rw [List.find?_cons_of_neg _ (by simp [he])]
      apply ih
      rcases List.any_eq_true.mp h with ⟨x, hx, hpx⟩
      rcases List.mem_cons.mp hx with rfl | hxt
      · exact absurd (by simpa using hpx) he
      · exact List.any_eq_true.mpr ⟨x, hxt, hpx⟩

/-- Helper: when the name is new, lookup finds the appended entry. -/
theorem get_parser_append_new (t : Registry.Reg) (p : Registry.FwParser)
    (h : ¬ t.any (fun e => e.1 = p.name) = true) :
    Registry.lookupParser (t ++ [(p.name, p)]) p.name = some p := by
  induction t with
  | nil =>
    unfold Registry.lookupParser
    rw [List.nil_append, List.find?_cons_of_pos _ (by simp)]
    rfl
  | cons e t ih =>
    have he : ¬ e.1 = p.name := by
      intro hc
      exact h (List.any_eq_true.mpr ⟨e, List.mem_cons_self e t, by simp [hc]⟩)
    rw [List.cons_append]
    unfold Registry.lookupParser
    rw [List.find?_cons_of_neg _ (by simp [he])]
    apply ih
    intro hc
    rcases List.any_eq_true.mp hc with ⟨x, hx, hpx⟩
    exact h (List.any_eq_true.mpr ⟨x, List.mem_cons_of_mem e hx, hpx⟩)

/-- C8: `ParserRegistry.register` keys a parser by its framework name and
the last registration for a name wins, and `detect_framework` walks the
registered parsers in deterministic registration order, returning the first
whose extensions contain the file extension and whose content detection
succeeds, and `none` when no parser qualifies (the `find?` formulation). -/
theorem registry_register_wins_and_detect_is_first_match
    (reg : Registry.Reg) (p : Registry.FwParser) (content ext : List Char) :
    Registry.lookupParser (Registry.register reg p) p.name = some p ∧
    Registry.detect_framework reg content ext =
      (reg.map (·.2)).find?
        (fun q => q.exts.contains ext && Registry.detectFw q content) := by
  constructor
  · unfold Registry.register
    by_cases h : reg.any (fun e => e.1 = p.name) = true
    · rw [if_pos h]
      exact get_parser_map_replace reg p h
    · rw [if_neg h]
      exact get_parser_append_new reg p h
  · induction reg with
    | nil => rfl
    | cons e t ih =>
      obtain ⟨n, q⟩ := e
      rw [Registry.detect_framework]
      simp only [List.map_cons]
      by_cases h1 : q.exts.contains ext = true
      · by_cases h2 : Registry.detectFw q content = true
        · rw [if_pos h1, if_pos h2,
            List.find?_cons_of_pos _
              (by rw [Bool.and_eq_true]; exact ⟨h1, h2⟩)]
        · rw [if_pos h1, if_neg h2,
            List.find?_cons_of_neg _
              (by rw [Bool.and_eq_true]; exact fun hc => h2 hc.2), ih]
      · rw [if_neg h1,
          List.find?_cons_of_neg _
            (by rw [Bool.and_eq_true]; exact fun hc => h1 hc.1), ih]

/-- C9: `get_file_content` rejects with `ValueError` exactly the requests
whose resolved path leaves the resolved repository root, raises
`FileNotFoundError` for in-root paths with no file, returns the content of
existing in-root files, and in particular rejects the traversal input
`../outside` (whenever the root is a real directory, i.e. non-empty, and is
not itself named `outside`). -/
theorem get_file_content_access_control
    (fs : List (List Char) → Option (List Char))
    (root rel : List (List Char)) :
    (¬ root.isPrefixOf (Scanner.resolveSegs root rel) = true →
      Scanner.get_file_content fs root rel = .error .valueError) ∧
    (root.isPrefixOf (Scanner.resolveSegs root rel) = true →
      fs (Scanner.resolveSegs root rel) = none →
      Scanner.get_file_content fs root rel = .error .fileNotFoundError) ∧
    (∀ c, root.isPrefixOf (Scanner.resolveSegs root rel) = true →
      fs (Scanner.resolveSegs root rel) = some c →
      Scanner.get_file_content fs root rel = .ok c) ∧
    (root ≠ [] → root.getLast? ≠ some "outside".data →
      Scanner.get_file_content fs root ["..".data, "outside".data] =
        .error .valueError) := by
  have hres : Scanner.resolveSegs root ["..".data, "outside".data] =
      root.dropLast ++ ["outside".data] := by
    rw [Scanner.resolveSegs, if_pos rfl, Scanner.resolveSegs,
      if_neg (by decide), if_neg (by decide), Scanner.resolveSegs]
  refine ⟨?_, ?_, ?_, ?_⟩
  · intro h
    unfold Scanner.get_file_content
    rw [if_neg h]
  · intro h hfs
    unfold Scanner.get_file_content
    rw [if_pos h, hfs]
  · intro c h hfs
    unfold Scanner.get_file_content
    rw [if_pos h, hfs]
  · intro hroot hlast
    unfold Scanner.get_file_content
    rw [hres, if_neg ?_]
    intro hpre
    have hp : root <+: root.dropLast ++ ["outside".data] :=
      List.isPrefixOf_iff_prefix.mp hpre
    have hlen : root.length = (root.dropLast ++ ["outside".data]).length := by
      rw [List.length_append, List.length_dropLast, List.length_singleton]
      have : 1 ≤ root.length := List.length_pos.mpr hroot
      omega
    have heq : root = root.dropLast ++ ["outside".data] :=
      List.IsPrefix.eq_of_length hp hlen
    apply hlast
    rw [heq, List.getLast?_concat]

/-- Witness for the C9 theorem: a one-file filesystem under `/home/r`; the
existing file is read, a missing one raises `FileNotFoundError`, and
`../outside` raises `ValueError`. -/
theorem get_file_content_access_control_witness :
    Scanner.get_file_content Ex.fs0 Ex.root0 ["a.py".data] = .ok "hi".data ∧
    Scanner.get_file_content Ex.fs0 Ex.root0 ["b.py".data] =
      .error .fileNotFoundError ∧
    Scanner.get_file_content Ex.fs0 Ex.root0 ["..".data, "outside".data] =
      .error .valueError :=
  ⟨(get_file_content_access_control Ex.fs0 Ex.root0 ["a.py".data]).2.2.1
      "hi".data (by decide) (by decide),
   (get_file_content_access_control Ex.fs0 Ex.root0 ["b.py".data]).2.1
      (by decide) (by decide),
   (get_file_content_access_control Ex.fs0 Ex.root0
      ["..".data, "outside".data]).2.2.2 (by decide) (by decide)⟩

mutual

/-- Helper for C10: every entry the walk emits below `pre` extends `pre` by
clean directory segments and a non-hidden file name. -/
theorem scanTree_clean : ∀ (t : Scanner.DirTree) (pre : List (List Char))
    (fi : Scanner.ScanEntry), fi ∈ Scanner.scanTree t pre →
    ∃ dirs name, fi.path = pre ++ dirs ++ [name] ∧
      (∀ seg ∈ dirs, seg ∉ Scanner.IGNORED_DIRS ∧
        ¬ ['.'].isPrefixOf seg = true) ∧
      ¬ ['.'].isPrefixOf name = true
  | .node files dirs, pre, fi, hm => by
    rw [Scanner.scanTree] at hm
    rcases List.mem_append.mp hm with hf | hd
    · unfold Scanner.scanFiles at hf
      rcases List.mem_filterMap.mp hf with ⟨fe, _, hsome⟩
      by_cases hk : Scanner.keepFile fe.1 = true
      · rw [if_pos hk] at hsome
        have hfi : fi.path = pre ++ [fe.1] := by
          cases hsome
          rfl
        have hnh : ¬ ['.'].isPrefixOf fe.1 = true := by
          unfold Scanner.keepFile at hk
          rcases Bool.and_eq_true _ _ |>.mp hk with ⟨hk1, _⟩
          rw [Bool.not_eq_true'] at hk1
          rw [hk1]
          exact Bool.false_ne_true
        exact ⟨[], fe.1, by simpa using hfi, by simp, hnh⟩
      · rw [if_neg hk] at hsome
        cases hsome
    · exact scanDirs_clean dirs pre fi hd

/-- Helper for C10 over the subdirectory list. -/
theorem scanDirs_clean : ∀ (ds : List (List Char × Scanner.DirTree))
    (pre : List (List Char)) (fi : Scanner.ScanEntry),
    fi ∈ Scanner.scanDirs ds pre →
    ∃ dirs name, fi.path = pre ++ dirs ++ [name] ∧
      (∀ seg ∈ dirs, seg ∉ Scanner.IGNORED_DIRS ∧
        ¬ ['.'].isPrefixOf seg = true) ∧
      ¬ ['.'].isPrefixOf name = true
  | [], _, fi, hm => by rw [Scanner.scanDirs] at hm; cases hm
  | (d, t) :: rest, pre, fi, hm => by
    rw [Scanner.scanDirs] at hm
    rcases List.mem_append.mp hm with h1 | h2
    · by_cases hk : Scanner.keepDir d = true
      · rw [if_pos hk] at h1
        obtain ⟨dirs, name, hpath, hdirs, hname⟩ :=
          scanTree_clean t (pre ++ [d]) fi h1
        refine ⟨d :: dirs, name, ?_, ?_, hname⟩
        · rw [hpath]
          simp [List.append_assoc]
        · intro seg hseg
          rcases List.mem_cons.mp hseg with rfl | hs
          · unfold Scanner.keepDir at hk
            rcases Bool.and_eq_true _ _ |>.mp hk with ⟨hk1, hk2⟩
            rw [Bool.not_eq_true'] at hk2
            refine ⟨by simpa using hk1, ?_⟩
            rw [hk2]
            exact Bool.false_ne_true
          · exact hdirs seg hs
      · rw [if_neg hk] at h1
        cases h1
    · exact scanDirs_clean rest pre fi h2

end

/-- C10: no entry returned by `scan_repository` has a file name starting
with `.`, and none lies under a directory whose name starts with `.` or
belongs to `IGNORED_DIRS`: hidden and vendored files are never enumerated. -/
theorem scan_repository_excludes_hidden_and_ignored
    (t : Scanner.DirTree) (fi : Scanner.ScanEntry)
    (h : fi ∈ Scanner.scanTree t []) :
    ∃ dirs name, fi.path = dirs ++ [name] ∧
      (∀ seg ∈ dirs, seg ∉ Scanner.IGNORED_DIRS ∧
        ¬ ['.'].isPrefixOf seg = true) ∧
      ¬ ['.'].isPrefixOf name = true := by
  obtain ⟨dirs, name, hp, hd, hn⟩ := scanTree_clean t [] fi h
  exact ⟨dirs, name, by simpa using hp, hd, hn⟩

/-- Witness for the C10 theorem on the concrete tree `tree0`. -/
theorem scan_repository_excludes_hidden_and_ignored_witness :
    ∃ dirs name, Ex.entry0.path = dirs ++ [name] ∧
      (∀ seg ∈ dirs, seg ∉ Scanner.IGNORED_DIRS ∧
        ¬ ['.'].isPrefixOf seg = true) ∧
      ¬ ['.'].isPrefixOf name = true :=
  scan_repository_excludes_hidden_and_ignored Ex.tree0 Ex.entry0 (by decide)

/-! Unfolding equations of the matcher, used by the `extract_path_params`
analysis. -/

/-- Unfolding: character pattern on the empty string. -/
theorem mtch_ch_nil (ci : Bool) (c : Char) : mtch ci (.ch c) [] = [] := rfl

/-- Unfolding: character pattern on a cons. -/
theorem mtch_ch_cons (ci : Bool) (c d : Char) (s : List Char) :
    mtch ci (.ch c) (d :: s) =
      if (if ci then c.toLower = d.toLower else c = d) then [([], s)] else [] :=
  rfl

/-- Unfolding: class pattern on the empty string. -/
theorem mtch_cls_nil (ci : Bool) (k : RC) : mtch ci (.cls k) [] = [] := rfl

/-- Unfolding: class pattern on a cons. -/
theorem mtch_cls_cons (ci : Bool) (k : RC) (d : Char) (s : List Char) :
    mtch ci (.cls k) (d :: s) =
      if rcAccepts ci k d then [([], s)] else [] := rfl

/-- Unfolding: concatenation. -/
theorem mtch_cat (ci : Bool) (a b : Rx) (s : List Char) :
    mtch ci (.cat a b) s =
      (mtch ci a s).flatMap
        (fun p => (mtch ci b p.2).map (fun q => (p.1 ++ q.1, q.2))) := rfl

/-- Unfolding: greedy star. -/
theorem mtch_star (ci : Bool) (a : Rx) (s : List Char) :
    mtch ci (.star a) s = starIter (mtch ci a) s.length s := rfl

/-- Unfolding: greedy option. -/
theorem mtch_opt (ci : Bool) (a : Rx) (s : List Char) :
    mtch ci (.opt a) s = mtch ci a s ++ [([], s)] := rfl

/-- Unfolding: capturing group. -/
theorem mtch_grp (ci : Bool) (a : Rx) (s : List Char) :
    mtch ci (.grp a) s =
      (mtch ci a s).map
        (fun p => ((s.take (s.length - p.2.length)) :: p.1, p.2)) := rfl

/-- Unfolding: a successful scan step reports the match at this position. -/
theorem searchFrom_some (ci : Bool) (r : Rx) (s : List Char) (i : Nat)
    (p : Caps × List Char) (h : mtchHead ci r s = some p) :
    searchFrom ci r s i = some (i, p.1, i + (s.length - p.2.length)) := by
  cases s <;> simp [searchFrom, h]

/-- Unfolding: no match at this position moves the scan right. -/
theorem searchFrom_cons_none (ci : Bool) (r : Rx) (c : Char) (t : List Char)
    (i : Nat) (h : mtchHead ci r (c :: t) = none) :
    searchFrom ci r (c :: t) i = searchFrom ci r t (i+1) := by
  simp [searchFrom, h]

/-- Unfolding: the scan of the empty suffix fails when the pattern does not
match it. -/
theorem searchFrom_nil_none (ci : Bool) (r : Rx) (i : Nat)
    (h : mtchHead ci r [] = none) :
    searchFrom ci r [] i = none := by
  simp [searchFrom, h]

/-- Unfolding: the iterator with exhausted fuel. -/
theorem finditerAux_zero (ci : Bool) (r : Rx) (full : List Char) (i : Nat) :
    finditerAux ci r full 0 i = [] := rfl

/-- Unfolding: one iterator step. -/
theorem finditerAux_succ (ci : Bool) (r : Rx) (full : List Char)
    (fuel i : Nat) :
    finditerAux ci r full (fuel+1) i =
      match searchFrom ci r (full.drop i) i with
      | none => []
      | some (st, caps, en) =>
          (st, caps, en) :: finditerAux ci r full fuel
            (if st < en then en else en + 1) := rfl

/-- A first-character mismatch kills a `cat (ch a) X` pattern. -/
theorem mtch_cat_ch_ne (a : Char) (X : Rx) {c : Char} (t : List Char)
    (h : ¬ a = c) :
    mtch false (.cat (.ch a) X) (c :: t) = [] := by
  rw [mtch_cat, mtch_ch_cons]
  simp [h]

/-- A `cat (ch a) X` pattern cannot match the empty string. -/
theorem mtch_cat_ch_nil (a : Char) (X : Rx) :
    mtch false (.cat (.ch a) X) [] = [] := by
  rw [mtch_cat, mtch_ch_nil]
  rfl

/-- Scanning past a character that is not the pattern's first character. -/
theorem searchFrom_cons_ne (a : Char) (X : Rx) {c : Char} (t : List Char)
    (i : Nat) (h : ¬ a = c) :
    searchFrom false (.cat (.ch a) X) (c :: t) i =
      searchFrom false (.cat (.ch a) X) t (i+1) :=
  searchFrom_cons_none false _ c t i
    (by rw [mtchHead, mtch_cat_ch_ne a X t h]; rfl)

/-- Scanning an empty suffix with a `cat (ch a) X` pattern fails. -/
theorem searchFrom_nil_of_ch (a : Char) (X : Rx) (i : Nat) :
    searchFrom false (.cat (.ch a) X) [] i = none :=
  searchFrom_nil_none false _ i
    (by rw [mtchHead, mtch_cat_ch_nil]; rfl)

/-- Scanning past a whole prefix containing no occurrence of the pattern's
first character. -/
theorem searchFrom_append_of_no_char (a : Char) (X : Rx) (u : List Char)
    (hu : ∀ c ∈ u, ¬ a = c) :
    ∀ (v : List Char) (i : Nat),
      searchFrom false (.cat (.ch a) X) (u ++ v) i =
        searchFrom false (.cat (.ch a) X) v (i + u.length) := by
  induction u with
  | nil => intro v i; rw [List.nil_append, List.length_nil, Nat.add_zero]
  | cons c u ih =>
    intro v i
    rw [List.cons_append,
      searchFrom_cons_ne a X _ i (hu c (List.mem_cons_self c u)),
      ih (fun d hd => hu d (List.mem_cons_of_mem c hd)) v (i+1),
      List.length_cons]
    congr 1
    omega

/-- A string without the pattern's first character has no match at all. -/
theorem searchFrom_none_of_no_char (a : Char) (X : Rx) (s : List Char)
    (hs : ∀ c ∈ s, ¬ a = c) :
    ∀ i, searchFrom false (.cat (.ch a) X) s i = none := by
  induction s with
  | nil => intro i; exact searchFrom_nil_of_ch a X i
  | cons c t ih =>
    intro i
    rw [searchFrom_cons_ne a X t i (hs c (List.mem_cons_self c t))]
    exact ih (fun d hd => hs d (List.mem_cons_of_mem c hd)) (i+1)

/-- `findall` of a `cat (ch a) X` pattern over a string without `a` is
empty. -/
theorem findall_eq_nil_of_no_char (a : Char) (X : Rx) (s : List Char)
    (hs : ∀ c ∈ s, ¬ a = c) :
    findallG1 false (.cat (.ch a) X) s = [] := by
  have haux : ∀ fuel i, finditerAux false (.cat (.ch a) X) s fuel i = [] := by
    intro fuel
    induction fuel with
    | zero => intro i; exact finditerAux_zero _ _ _ _
    | succ n ih =>
      intro i
      rw [finditerAux_succ,
        searchFrom_none_of_no_char a X (s.drop i)
          (fun c hc => hs c (List.drop_subset i s hc)) i]
  unfold findallG1 finditer
  rw [show s.length + 2 = (s.length + 1) + 1 from rfl, haux, List.map_nil]

/-- Unfolding: the word class accepts exactly word characters. -/
theorem rcAccepts_wordc (ci : Bool) (c : Char) :
    rcAccepts ci .wordc c = isWordChar c := rfl

/-- Unfolding: star with no fuel. -/
theorem starIter_zero (f : List Char → List (Caps × List Char))
    (s : List Char) : starIter f 0 s = [([], s)] := rfl

/-- Unfolding: one greedy star step. -/
theorem starIter_succ (f : List Char → List (Caps × List Char)) (n : Nat)
    (s : List Char) :
    starIter f (n+1) s =
      (((f s).filter (fun p => p.2.length < s.length)).flatMap
        (fun p => (starIter f n p.2).map (fun q => (p.1 ++ q.1, q.2)))) ++
        [([], s)] := rfl

/-- Greedy iteration of the word class over a word-character block followed
by a stopper: the first (preferred) result consumes the whole block. -/
theorem starIter_word_cons :
    ∀ (w rest : List Char) (n : Nat), w.length ≤ n →
    (∀ c ∈ w, isWordChar c = true) →
    (∀ c t, rest = c :: t → isWordChar c = false) →
    ∃ l, starIter (mtch false (.cls .wordc)) n (w ++ rest) = ([], rest) :: l := by
  intro w
  induction w with
  | nil =>
    intro rest n _ _ hrest
    rw [List.nil_append]
    cases n with
    | zero => exact ⟨[], rfl⟩
    | succ m =>
      rw [starIter_succ]
      cases rest with
      | nil => rw [mtch_cls_nil]; exact ⟨[], rfl⟩
      | cons c t =>
        rw [mtch_cls_cons, rcAccepts_wordc, hrest c t rfl]
        simp
  | cons c w ih =>
    intro rest n hn hw hrest
    cases n with
    | zero => simp at hn
    | succ m =>
      rw [List.cons_append, starIter_succ, mtch_cls_cons, rcAccepts_wordc,
        if_pos (hw c (List.mem_cons_self c w)),
        List.filter_cons_of_pos (by simp), List.filter_nil,
        List.flatMap_cons, List.flatMap_nil, List.append_nil]
      obtain ⟨l, hl⟩ := ih rest m (by simpa using hn)
        (fun d hd => hw d (List.mem_cons_of_mem c hd)) hrest
      rw [hl]
      simp only [List.map_cons, List.nil_append]
      exact ⟨_, rfl⟩

/-- `\w+` on a word block with a stopper: first result consumes the block. -/
theorem mtch_plus_word_cons (w rest : List Char) (hne : w ≠ [])
    (hw : ∀ c ∈ w, isWordChar c = true)
    (hrest : ∀ c t, rest = c :: t → isWordChar c = false) :
    ∃ l, mtch false (Rx.plus (.cls .wordc)) (w ++ rest) = ([], rest) :: l := by
  cases w with
  | nil => exact absurd rfl hne
  | cons c w =>
    rw [show Rx.plus (.cls .wordc) =
        .cat (.cls .wordc) (.star (.cls .wordc)) from rfl,
      List.cons_append, mtch_cat, mtch_cls_cons, rcAccepts_wordc,
      if_pos (hw c (List.mem_cons_self c w)),
      List.flatMap_cons, List.flatMap_nil, List.append_nil, mtch_star]
    obtain ⟨l, hl⟩ := starIter_word_cons w rest (w ++ rest).length
      (by simp) (fun d hd => hw d (List.mem_cons_of_mem c hd)) hrest
    rw [hl]
    simp only [List.map_cons, List.nil_append]
    exact ⟨_, rfl⟩

/-- `(\w+)` on a word block with a stopper: first result captures the
block. -/
theorem mtch_grp_plus_word_cons (w rest : List Char) (hne : w ≠ [])
    (hw : ∀ c ∈ w, isWordChar c = true)
    (hrest : ∀ c t, rest = c :: t → isWordChar c = false) :
    ∃ l, mtch false (.grp (Rx.plus (.cls .wordc))) (w ++ rest) =
      ([w], rest) :: l := by
  rw [mtch_grp]
  obtain ⟨l, hl⟩ := mtch_plus_word_cons w rest hne hw hrest
  rw [hl]
  simp only [List.map_cons]
  have hlen : (w ++ rest).length - rest.length = w.length := by
    simp only [List.length_append]
    omega
  rw [hlen, List.take_left]
  exact ⟨_, rfl⟩

/-- A character pattern consumes its own character. -/
theorem mtch_ch_eq (a : Char) (t : List Char) :
    mtch false (.ch a) (a :: t) = [([], t)] := by
  rw [mtch_ch_cons]
  simp

/-- A `cat (ch a) X` pattern at its own first character reduces to `X` on
the tail. -/
theorem mtch_cat_ch_eq (a : Char) (X : Rx) (t : List Char) :
    mtch false (.cat (.ch a) X) (a :: t) = mtch false X t := by
  rw [mtch_cat, mtch_ch_eq]
  simp

/-- The `:(\w+)` pattern matches at a colon followed by a word block. -/
theorem mtchHead_colon (w rest : List Char) (hne : w ≠ [])
    (hw : ∀ c ∈ w, isWordChar c = true)
    (hrest : ∀ c t, rest = c :: t → isWordChar c = false) :
    mtchHead false colonParamPat (':' :: (w ++ rest)) = some ([w], rest) := by
  rw [mtchHead,
    show colonParamPat = .cat (.ch ':') (.grp (Rx.plus (.cls .wordc))) from
      rfl,
    mtch_cat_ch_eq]
  obtain ⟨l, hl⟩ := mtch_grp_plus_word_cons w rest hne hw hrest
  rw [hl]
  simp

/-- The `\{(\w+)\}` pattern matches at an opening brace around a word
block. -/
theorem mtchHead_brace (w rest : List Char) (hne : w ≠ [])
    (hw : ∀ c ∈ w, isWordChar c = true) :
    mtchHead false braceParamPat ('\x7b' :: (w ++ ('\x7d' :: rest))) =
      some ([w], rest) := by
  rw [mtchHead,
    show braceParamPat = .cat (.ch '\x7b')
      (.cat (.grp (Rx.plus (.cls .wordc))) (.ch '\x7d')) from rfl,
    mtch_cat_ch_eq, mtch_cat]
  obtain ⟨l, hl⟩ := mtch_grp_plus_word_cons w ('\x7d' :: rest) hne hw
    (fun c t hct => by injection hct with h1 _; rw [← h1]; decide)
  rw [hl, List.flatMap_cons, mtch_ch_eq]
  simp

/-- The `<(?:\w+:)?(\w+)>` pattern matches at `<int:` followed by a word
block and `>`. -/
theorem mtchHead_angle (w rest : List Char) (hne : w ≠ [])
    (hw : ∀ c ∈ w, isWordChar c = true) :
    mtchHead false angleParamPat
        ('<' :: ("int:".data ++ (w ++ ('>' :: rest)))) =
      some ([w], rest) := by
  rw [mtchHead,
    show angleParamPat = .cat (.ch '<')
      (.cat (.opt (.cat (Rx.plus (.cls .wordc)) (.ch ':')))
        (.cat (.grp (Rx.plus (.cls .wordc))) (.ch '>'))) from rfl,
    mtch_cat_ch_eq, mtch_cat, mtch_opt]
  have hA : ∃ l, mtch false (.cat (Rx.plus (.cls .wordc)) (.ch ':'))
      ("int:".data ++ (w ++ ('>' :: rest))) =
      ([], w ++ ('>' :: rest)) :: l := by
    show ∃ l, mtch false _ ("int".data ++ (':' :: (w ++ ('>' :: rest)))) = _
    rw [mtch_cat]
    obtain ⟨l, hl⟩ := mtch_plus_word_cons "int".data
      (':' :: (w ++ ('>' :: rest))) (by decide) (by decide)
      (fun c t hct => by injection hct with h1 _; rw [← h1]; decide)
    rw [hl, List.flatMap_cons, mtch_ch_eq]
    simp only [List.map_cons, List.map_nil, List.nil_append]
    exact ⟨_, rfl⟩
  obtain ⟨lA, hlA⟩ := hA
  rw [hlA, List.cons_append, List.flatMap_cons]
  have hB : ∃ l, mtch false
      (.cat (.grp (Rx.plus (.cls .wordc))) (.ch '>')) (w ++ ('>' :: rest)) =
      ([w], rest) :: l := by
    rw [mtch_cat]
    obtain ⟨l, hl⟩ := mtch_grp_plus_word_cons w ('>' :: rest) hne hw
      (fun c t hct => by injection hct with h1 _; rw [← h1]; decide)
    rw [hl, List.flatMap_cons, mtch_ch_eq]
    simp only [List.map_cons, List.map_nil, List.append_nil,
      List.cons_append]
    exact ⟨_, rfl⟩
  obtain ⟨lB, hlB⟩ := hB
  rw [hlB]
  simp

/-- `findall` over a string with exactly one match: a clean prefix, the
match, and a remainder with no further match. -/
theorem findall_one (a : Char) (X : Rx) (u mid rest : List Char) (caps : Caps)
    (hu : ∀ c ∈ u, ¬ a = c)
    (hm : mtchHead false (.cat (.ch a) X) (a :: (mid ++ rest)) =
      some (caps, rest))
    (hr : ∀ i, searchFrom false (.cat (.ch a) X) rest i = none) :
    findallG1 false (.cat (.ch a) X) (u ++ (a :: (mid ++ rest))) =
      [caps.getD 0 []] := by
  have hsearch : searchFrom false (.cat (.ch a) X)
      (u ++ (a :: (mid ++ rest))) 0 =
      some (u.length, caps, u.length + (1 + mid.length)) := by
    rw [searchFrom_append_of_no_char a X u hu _ 0, Nat.zero_add,
      searchFrom_some false _ _ _ (caps, rest) hm]
    have hx : (a :: (mid ++ rest)).length - rest.length = 1 + mid.length := by
      simp only [List.length_cons, List.length_append]
      omega
    rw [hx]
  unfold findallG1 finditer
  rw [show (u ++ (a :: (mid ++ rest))).length + 2 =
      ((u ++ (a :: (mid ++ rest))).length + 1) + 1 from rfl,
    finditerAux_succ, List.drop_zero, hsearch]
  dsimp only
  rw [if_pos (by omega), finditerAux_succ]
  have hdrop : (u ++ (a :: (mid ++ rest))).drop
      (u.length + (1 + mid.length)) = rest := by
    have hsh : u ++ (a :: (mid ++ rest)) = (u ++ (a :: mid)) ++ rest := by
      simp [List.append_assoc]
    have hlen : (u ++ (a :: mid)).length = u.length + (1 + mid.length) := by
      simp only [List.length_append, List.length_cons]
      omega
    rw [hsh, ← hlen, List.drop_left]
  rw [hdrop, hr (u.length + (1 + mid.length))]
  rfl

set_option maxHeartbeats 3200000 in
/-- C7: `extract_path_params` returns the same parameter-name set for the
three supported syntaxes: for every ASCII parameter name `w`, the paths
`/users/:w`, `/users/{w}` and `/users/<int:w>` all yield exactly the set
`{w}`. -/
theorem extract_path_params_syntax_agreement (w : List Char) (hne : w ≠ [])
    (hw : ∀ c ∈ w, isWordChar c = true) :
    (extract_path_params ("/users/:".data ++ w)).toFinset = {w} ∧
    (extract_path_params
      ("/users/\x7b".data ++ w ++ "\x7d".data)).toFinset = {w} ∧
    (extract_path_params
      ("/users/<int:".data ++ w ++ ">".data)).toFinset = {w} := by
  have hwChar : ∀ a : Char, isWordChar a = false → ∀ c ∈ w, ¬ a = c := by
    intro a ha c hc hac
    rw [hac, hw c hc] at ha
    cases ha
  have hcPat : colonParamPat =
      .cat (.ch ':') (.grp (Rx.plus (.cls .wordc))) := rfl
  have hbPat : braceParamPat = .cat (.ch '\x7b')
      (.cat (.grp (Rx.plus (.cls .wordc))) (.ch '\x7d')) := rfl
  have haPat : angleParamPat = .cat (.ch '<')
      (.cat (.opt (.cat (Rx.plus (.cls .wordc)) (.ch ':')))
        (.cat (.grp (Rx.plus (.cls .wordc))) (.ch '>'))) := rfl
  refine ⟨?_, ?_, ?_⟩
  · -- "/users/:" ++ w
    have h1c : findallG1 false colonParamPat ("/users/:".data ++ w) = [w] := by
      rw [show ("/users/:".data ++ w : List Char) =
          "/users/".data ++ (':' :: (w ++ [])) from by
            rw [show ("/users/:".data : List Char) =
              "/users/".data ++ [':'] from by decide]
            simp,
        hcPat, findall_one ':' _ "/users/".data w [] [w] (by decide)
          (mtchHead_colon w [] hne hw (fun c t hct => by cases hct))
          (fun i => searchFrom_nil_of_ch ':' _ i)]
      rfl
    have h1b : findallG1 false braceParamPat ("/users/:".data ++ w) = [] := by
      rw [hbPat]
      refine findall_eq_nil_of_no_char _ _ _ ?_
      intro c hc
      rcases List.mem_append.mp hc with h | h
      · have hall : ∀ c ∈ "/users/:".data, ¬ '\x7b' = c := by decide
        exact hall c h
      · exact hwChar '\x7b' (by decide) c h
    have h1a : findallG1 false angleParamPat ("/users/:".data ++ w) = [] := by
      rw [haPat]
      refine findall_eq_nil_of_no_char _ _ _ ?_
      intro c hc
      rcases List.mem_append.mp hc with h | h
      · have hall : ∀ c ∈ "/users/:".data, ¬ '<' = c := by decide
        exact hall c h
      · exact hwChar '<' (by decide) c h
    unfold extract_path_params
    rw [h1c, h1b, h1a]
    simp
  · -- "/users/{" ++ w ++ "}"
    have h2b : findallG1 false braceParamPat
        ("/users/\x7b".data ++ w ++ "\x7d".data) = [w] := by
      rw [show ("/users/\x7b".data ++ w ++ "\x7d".data : List Char) =
          "/users/".data ++ ('\x7b' :: ((w ++ ['\x7d']) ++ [])) from by
            rw [show ("/users/\x7b".data : List Char) =
              "/users/".data ++ ['\x7b'] from by decide,
              show ("\x7d".data : List Char) = ['\x7d'] from by decide]
            simp,
        hbPat, findall_one '\x7b' _ "/users/".data (w ++ ['\x7d']) [] [w]
          (by decide)
          (by rw [List.append_nil]; exact mtchHead_brace w [] hne hw)
          (fun i => searchFrom_nil_of_ch '\x7b' _ i)]
      rfl
    have h2c : findallG1 false colonParamPat
        ("/users/\x7b".data ++ w ++ "\x7d".data) = [] := by
      rw [hcPat]
      refine findall_eq_nil_of_no_char _ _ _ ?_
      intro c hc
      rcases List.mem_append.mp hc with h | h
      · rcases List.mem_append.mp h with h' | h'
        · have hall : ∀ c ∈ "/users/\x7b".data, ¬ ':' = c := by decide
          exact hall c h'
        · exact hwChar ':' (by decide) c h'
      · have hall : ∀ c ∈ "\x7d".data, ¬ ':' = c := by decide
        exact hall c h
    have h2a : findallG1 false angleParamPat
        ("/users/\x7b".data ++ w ++ "\x7d".data) = [] := by
      rw [haPat]
      refine findall_eq_nil_of_no_char _ _ _ ?_
      intro c hc
      rcases List.mem_append.mp hc with h | h
      · rcases List.mem_append.mp h with h' | h'
        · have hall : ∀ c ∈ "/users/\x7b".data, ¬ '<' = c := by decide
          exact hall c h'
        · exact hwChar '<' (by decide) c h'
      · have hall : ∀ c ∈ "\x7d".data, ¬ '<' = c := by decide
        exact hall c h
    unfold extract_path_params
    rw [h2c, h2b, h2a]
    simp
  · -- "/users/<int:" ++ w ++ ">"
    have h3a : findallG1 false angleParamPat
        ("/users/<int:".data ++ w ++ ">".data) = [w] := by
      rw [show ("/users/<int:".data ++ w ++ ">".data : List Char) =
          "/users/".data ++
            ('<' :: (("int:".data ++ (w ++ ['>'])) ++ [])) from by
            rw [show ("/users/<int:".data : List Char) =
              "/users/".data ++ ('<' :: "int:".data) from by decide,
              show (">".data : List Char) = ['>'] from by decide]
            simp,
        haPat, findall_one '<' _ "/users/".data ("int:".data ++ (w ++ ['>']))
          [] [w] (by decide)
          (by rw [List.append_nil]; exact mtchHead_angle w [] hne hw)
          (fun i => searchFrom_nil_of_ch '<' _ i)]
      rfl
    have h3c : findallG1 false colonParamPat
        ("/users/<int:".data ++ w ++ ">".data) = [w] := by
      rw [show ("/users/<int:".data ++ w ++ ">".data : List Char) =
          "/users/<int".data ++ (':' :: (w ++ ['>'])) from by
            rw [show ("/users/<int:".data : List Char) =
              "/users/<int".data ++ [':'] from by decide,
              show (">".data : List Char) = ['>'] from by decide]
            simp,
        hcPat, findall_one ':' _ "/users/<int".data w ['>'] [w] (by decide)
          (mtchHead_colon w ['>'] hne hw
            (fun c t hct => by injection hct with h1 _; rw [← h1]; decide))
          (fun i => searchFrom_none_of_no_char ':' _ ['>'] (by decide) i)]
      rfl
    have h3b : findallG1 false braceParamPat
        ("/users/<int:".data ++ w ++ ">".data) = [] := by
      rw [hbPat]
      refine findall_eq_nil_of_no_char _ _ _ ?_
      intro c hc
      rcases List.mem_append.mp hc with h | h
      · rcases List.mem_append.mp h with h' | h'
        · have hall : ∀ c ∈ "/users/<int:".data, ¬ '\x7b' = c := by decide
          exact hall c h'
        · exact hwChar '\x7b' (by decide) c h'
      · have hall : ∀ c ∈ ">".data, ¬ '\x7b' = c := by decide
        exact hall c h
    unfold extract_path_params
    rw [h3c, h3b, h3a]
    simp only [List.append_nil, List.singleton_append]
    rw [List.dedup_cons_of_mem (List.mem_singleton.mpr rfl)]
    simp

/-- Witness for the C7 theorem at the parameter name `id`. -/
theorem extract_path_params_syntax_agreement_witness :
    (extract_path_params ("/users/:".data ++ "id".data)).toFinset =
      {"id".data} ∧
    (extract_path_params
      ("/users/\x7b".data ++ "id".data ++ "\x7d".data)).toFinset =
      {"id".data} ∧
    (extract_path_params
      ("/users/<int:".data ++ "id".data ++ ">".data)).toFinset =
      {"id".data} :=
  extract_path_params_syntax_agreement "id".data (by decide) (by decide)

end ApiAutoDoc
